import Mathlib

/-!
# Verification of `lz_stream_tools`

A shallow embedding of the stream operators of the `lz_stream_tools`
repository (`src/latest.rs`, `src/with_latest_from.rs`, `src/group_by.rs`),
together with proofs of the specification claims about them.

The futures-0.1 pull model is embedded as follows.  An underlying stream is
modelled by the finite list of outcomes its successive `poll` calls produce:
each call to `poll` consumes the head of the list.  The outcome of a single
`poll` of the wrapped stream is one of `item`, `notReady`, end-of-stream
(`eos`) or `err`, mirroring `Poll<Option<Item>, Error>`; an exhausted script
behaves as end-of-stream.  An operator's `poll` is then a Lean function from
its state to the returned `Poll` value (`Except E (Async (Option α))`,
mirroring `Result<Async<Option<T>>, E>`) paired with the successor state.
-/

namespace LzStreamTools

/-- One outcome of polling an underlying stream: `Ok(Ready(Some(item)))`,
`Ok(NotReady)`, `Ok(Ready(None))` or `Err(e)`. -/
inductive Ev (I E : Type) where
  | item : I → Ev I E
  | notReady : Ev I E
  | eos : Ev I E
  | err : E → Ev I E
deriving DecidableEq, Repr

/-- `futures::Async`: either `Ready` with a payload or `NotReady`. -/
inductive Async (α : Type) where
  | ready : α → Async α
  | notReady : Async α
deriving DecidableEq, Repr

/-- One `poll` of a raw scripted stream: consume the head outcome.  An empty
script behaves as a stream that has reached its end. -/
def streamPoll {I E : Type} : List (Ev I E) → Except E (Async (Option I)) × List (Ev I E)
  | [] => (.ok (.ready none), [])
  | Ev.item x :: rest => (.ok (.ready (some x)), rest)
  | Ev.notReady :: rest => (.ok .notReady, rest)
  | Ev.eos :: rest => (.ok (.ready none), rest)
  | Ev.err e :: rest => (.error e, rest)

/-! ## `Latest` (`src/latest.rs`)

`Latest<S>` holds only the wrapped stream (`struct Latest { stream: S }`), so
its whole state is the remaining script of the wrapped stream.  `Latest::poll`
first polls the wrapped stream through `try_ready!` (propagating `NotReady`
and errors, and mapping `Ready(None)` to `Ready(None)`); once it holds a first
value it enters the drain loop, replacing the retained value with each newer
one until the wrapped stream reports `NotReady` or `Ready(None)`, and returns
the retained value.  An error inside the drain loop is returned as-is, losing
the retained value. -/

/-- The drain loop of `Latest::poll`, with `latest` the currently retained
value. -/
def latestDrain {I E : Type} (latest : I) :
    List (Ev I E) → Except E (Async (Option I)) × List (Ev I E)
  | [] => (.ok (.ready (some latest)), [])
  | Ev.item x :: rest => latestDrain x rest
  | Ev.notReady :: rest => (.ok (.ready (some latest)), rest)
  | Ev.eos :: rest => (.ok (.ready (some latest)), rest)
  | Ev.err e :: rest => (.error e, rest)

/-- `Latest::poll` (`src/latest.rs`, lines 17–32). -/
def latestPoll {I E : Type} : List (Ev I E) → Except E (Async (Option I)) × List (Ev I E)
  | [] => (.ok (.ready none), [])
  | Ev.item x :: rest => latestDrain x rest
  | Ev.notReady :: rest => (.ok .notReady, rest)
  | Ev.eos :: rest => (.ok (.ready none), rest)
  | Ev.err e :: rest => (.error e, rest)

theorem latestDrain_items {I E : Type} (a : I) (xs : List I) (stop : Ev I E)
    (rest : List (Ev I E)) (hstop : stop = Ev.notReady ∨ stop = Ev.eos) :
    latestDrain a (xs.map Ev.item ++ stop :: rest) =
      (.ok (.ready (some (xs.getLastD a))), rest) := by
  induction xs generalizing a with
  | nil =>
      rcases hstop with h | h <;> subst h <;> simp [latestDrain]
  | cons y ys ih =>
      rw [List.map_cons, List.cons_append, List.getLastD_cons]
      exact ih y

theorem latestDrain_err {I E : Type} (a : I) (xs : List I) (e : E)
    (rest : List (Ev I E)) :
    latestDrain a (xs.map Ev.item ++ Ev.err e :: rest) = (.error e, rest) := by
  induction xs generalizing a with
  | nil => simp [latestDrain]
  | cons y ys ih => simpa [latestDrain] using ih y

/-- C5: A poll of `Latest` whose wrapped stream is immediately not-ready
returns not-ready (and retains nothing: the successor state is exactly the
remaining script); a poll whose wrapped stream yields a burst of `N ≥ 1`
consecutively available items and then reports not-ready or end-of-sequence
returns exactly the last item of the burst; since the successor state is the
untouched remainder of the script, a subsequent poll again starts from the
wrapped stream's next outcome and requires a new item before producing. -/
theorem latest_burst_yields_last {I E : Type} :
    (∀ rest : List (Ev I E), latestPoll (Ev.notReady :: rest) = (.ok .notReady, rest))
    ∧ (∀ (xs : List I) (x : I) (rest : List (Ev I E)),
        latestPoll ((xs ++ [x]).map Ev.item ++ Ev.notReady :: rest) =
          (.ok (.ready (some x)), rest))
    ∧ (∀ (xs : List I) (x : I) (rest : List (Ev I E)),
        latestPoll ((xs ++ [x]).map Ev.item ++ Ev.eos :: rest) =
          (.ok (.ready (some x)), rest)) := by
  refine ⟨fun rest => rfl, fun xs x rest => ?_, fun xs x rest => ?_⟩ <;>
    cases xs with
    | nil =>
        simpa [latestPoll] using
          latestDrain_items (E := E) x [] _ rest (by simp)
    | cons y ys =>
        rw [List.cons_append, List.map_cons, List.cons_append]
        show latestDrain y ((ys ++ [x]).map Ev.item ++ _ :: rest) = _
        rw [latestDrain_items y (ys ++ [x]) _ rest (by simp)]
        simp

/-- C9: if, within a single poll of `Latest`, the wrapped stream yields one or
more items and then returns an error, the poll returns that error, and the
successor state is exactly the untouched remainder of the script — the most
recently retained item of the burst is gone (`Latest` has no field besides the
wrapped stream), so no later poll can deliver it. -/
theorem latest_error_drops_retained {I E : Type} :
    ∀ (xs : List I) (x : I) (e : E) (rest : List (Ev I E)),
      latestPoll ((xs ++ [x]).map Ev.item ++ Ev.err e :: rest) = (.error e, rest) := by
  intro xs x e rest
  cases xs with
  | nil => simpa [latestPoll] using latestDrain_err (E := E) x [] e rest
  | cons y ys =>
      rw [List.cons_append, List.map_cons, List.cons_append]
      show latestDrain y ((ys ++ [x]).map Ev.item ++ Ev.err e :: rest) = _
      exact latestDrain_err y (ys ++ [x]) e rest

/-! ## `WithLatestFrom` (`src/with_latest_from.rs`)

`WithLatestFrom::new(stream, other)` stores `stream.fuse()` and
`other.latest().fuse()` plus `latest_value: Option<O::Item>`, inside
`WithLatestFromState::{InProgress, Done}`.  `futures::stream::Fuse` keeps a
`done` flag: once the wrapped stream has returned `Ready(None)` the flag is
set and every later poll returns `Ready(None)` without touching the wrapped
stream; errors pass through without setting the flag.  A fused stream is
modelled as the pair of its `done` flag and its wrapped stream's state. -/

/-- `futures::stream::Fuse::poll`, parametric in the wrapped stream's poll
function. -/
def fusePoll {σ α E : Type} (poll : σ → Except E (Async (Option α)) × σ) :
    Bool × σ → Except E (Async (Option α)) × (Bool × σ)
  | (true, s) => (.ok (.ready none), (true, s))
  | (false, s) =>
    match poll s with
    | (.ok (.ready none), s') => (.ok (.ready none), (true, s'))
    | (r, s') => (r, (false, s'))

/-- `WithLatestFromState<Fuse<S>, Fuse<Latest<O>>>`: either `InProgress` with
the fused primary stream, the fused `Latest`-wrapped secondary stream and the
cached `latest_value`, or `Done`. -/
inductive WLFState (I J E : Type) where
  | inProgress : Bool × List (Ev I E) → Bool × List (Ev J E) → Option J → WLFState I J E
  | done : WLFState I J E
deriving DecidableEq, Repr

/-- The common outcome of the source arms `(_, Err(e), _)` (secondary error)
and `(Ok(Ready(None)), _, _)` (primary end) once the primary side has reported
`Ready(None)`: the secondary's poll result decides between propagating its
error and ending the join; either way the state stays `Done`. -/
def wlfEnd {I J E : Type} (other : Bool × List (Ev J E)) :
    Except E (Async (Option (I × J))) × WLFState I J E :=
  match fusePoll latestPoll other with
  | (.error e, _) => (.error e, .done)
  | (.ok _, _) => (.ok (.ready none), .done)

/-- Worker for `WithLatestFrom::poll` (`src/with_latest_from.rs`, lines
39–92).  The fused primary stream's state is carried as the explicit pair of
its `done` flag and its script, with the `Fuse` layer of the primary side
unfolded into the outer pattern match, so that the source's `loop` — which is
re-entered only from the arm `(Ready(Some(_)), Ready(None), None)`, an arm
that has just consumed one primary item — becomes structural recursion on the
primary script.  The theorems `wlfPoll_arm_*` below restate this function
arm-by-arm in the exact shape of the source's match on
`(stream.poll(), other.poll(), latest_value)`. -/
def wlfGo {I J E : Type} : Bool → List (Ev I E) → Bool × List (Ev J E) → Option J →
    Except E (Async (Option (I × J))) × WLFState I J E
  | true, _, other, _ => wlfEnd other
  | false, [], other, _ => wlfEnd other
  | false, Ev.eos :: _, other, _ => wlfEnd other
  | false, Ev.err e :: _, _, _ => (.error e, .done)
  | false, Ev.notReady :: rest, other, latest_value =>
    match fusePoll latestPoll other, latest_value with
    | (.error e, _), _ => (.error e, .done)
    | (.ok (.ready lv), o'), _ => (.ok .notReady, .inProgress (false, rest) o' lv)
    | (.ok .notReady, o'), lv => (.ok .notReady, .inProgress (false, rest) o' lv)
  | false, Ev.item x :: rest, other, latest_value =>
    match fusePoll latestPoll other, latest_value with
    | (.error e, _), _ => (.error e, .done)
    | (.ok (.ready none), o'), some v =>
        (.ok (.ready (some (x, v))), .inProgress (false, rest) o' (some v))
    | (.ok (.ready (some v)), o'), _ =>
        (.ok (.ready (some (x, v))), .inProgress (false, rest) o' (some v))
    | (.ok .notReady, o'), some v =>
        (.ok (.ready (some (x, v))), .inProgress (false, rest) o' (some v))
    | (.ok .notReady, o'), none => (.ok .notReady, .inProgress (false, rest) o' none)
    | (.ok (.ready none), o'), none => wlfGo false rest o' none

/-- `WithLatestFrom::poll`: `Done` keeps returning `Ready(None)`;
`InProgress` runs the source's poll-both-sides loop. -/
def wlfPoll {I J E : Type} :
    WLFState I J E → Except E (Async (Option (I × J))) × WLFState I J E
  | .done => (.ok (.ready none), .done)
  | .inProgress stream other latest_value => wlfGo stream.1 stream.2 other latest_value

/-- Source arm `(Err(error), _, _)`: a primary-side error is propagated and
the state is left as `Done`. -/
theorem wlfPoll_arm_errPrimary {I J E : Type} {stream s1 : Bool × List (Ev I E)}
    (other : Bool × List (Ev J E)) (lv : Option J) {e : E}
    (h1 : fusePoll streamPoll stream = (.error e, s1)) :
    wlfPoll (.inProgress stream other lv) = (.error e, .done) := by
  obtain ⟨pd, pevs⟩ := stream
  cases pd with
  | true => simp [fusePoll] at h1
  | false =>
    cases pevs with
    | nil => simp [fusePoll, streamPoll] at h1
    | cons ev rest =>
      cases ev with
      | item x => simp [fusePoll, streamPoll] at h1
      | notReady => simp [fusePoll, streamPoll] at h1
      | eos => simp [fusePoll, streamPoll] at h1
      | err e2 =>
        simp [fusePoll, streamPoll] at h1
        simp [wlfPoll, wlfGo, h1.1]

/-- Source arm `(_, Err(error), _)` (with the primary side not erroring): a
secondary-side error is propagated and the state is left as `Done`. -/
theorem wlfPoll_arm_errSecondary {I J E : Type} {stream s1 : Bool × List (Ev I E)}
    {other o1 : Bool × List (Ev J E)} {r : Async (Option I)} (lv : Option J) {e : E}
    (h1 : fusePoll streamPoll stream = (.ok r, s1))
    (h2 : fusePoll latestPoll other = (.error e, o1)) :
    wlfPoll (.inProgress stream other lv) = (.error e, .done) := by
  obtain ⟨pd, pevs⟩ := stream
  cases pd with
  | true => simp [wlfPoll, wlfGo, wlfEnd, h2]
  | false =>
    cases pevs with
    | nil => simp [wlfPoll, wlfGo, wlfEnd, h2]
    | cons ev rest =>
      cases ev with
      | item x => simp [wlfPoll, wlfGo, h2]
      | notReady => simp [wlfPoll, wlfGo, h2]
      | eos => simp [wlfPoll, wlfGo, wlfEnd, h2]
      | err e2 => simp [fusePoll, streamPoll] at h1

theorem fusePoll_stream_item {I E : Type} {b b' : Bool × List (Ev I E)} {x : I}
    (h : fusePoll streamPoll b = (.ok (.ready (some x)), b')) :
    b.1 = false ∧ b.2 = Ev.item x :: b'.2 ∧ b'.1 = false := by
  obtain ⟨pd, pevs⟩ := b
  cases pd with
  | true => simp [fusePoll] at h
  | false =>
    cases pevs with
    | nil => simp [fusePoll, streamPoll] at h
    | cons ev rest =>
      cases ev with
      | item y =>
        simp [fusePoll, streamPoll] at h
        simp [h.1, ← h.2]
      | notReady => simp [fusePoll, streamPoll] at h
      | eos => simp [fusePoll, streamPoll] at h
      | err e2 => simp [fusePoll, streamPoll] at h

theorem fusePoll_stream_notReady {I E : Type} {b b' : Bool × List (Ev I E)}
    (h : fusePoll streamPoll b = (.ok .notReady, b')) :
    b.1 = false ∧ b.2 = Ev.notReady :: b'.2 ∧ b'.1 = false := by
  obtain ⟨pd, pevs⟩ := b
  cases pd with
  | true => simp [fusePoll] at h
  | false =>
    cases pevs with
    | nil => simp [fusePoll, streamPoll] at h
    | cons ev rest =>
      cases ev with
      | item y => simp [fusePoll, streamPoll] at h
      | notReady =>
        simp [fusePoll, streamPoll] at h
        simp [← h]
      | eos => simp [fusePoll, streamPoll] at h
      | err e2 => simp [fusePoll, streamPoll] at h

/-- Source arm `(Ok(Ready(None)), _, _)` (with the secondary not erroring):
when the fused primary stream reports end-of-sequence, the poll returns
end-of-sequence and the state is left as `Done`, whatever the secondary
produced. -/
theorem wlfPoll_arm_primaryEnd {I J E : Type} {stream s1 : Bool × List (Ev I E)}
    {other o1 : Bool × List (Ev J E)} {r2 : Async (Option J)} (lv : Option J)
    (h1 : fusePoll streamPoll stream = (.ok (.ready none), s1))
    (h2 : fusePoll latestPoll other = (.ok r2, o1)) :
    wlfPoll (.inProgress stream other lv) = (.ok (.ready none), .done) := by
  obtain ⟨pd, pevs⟩ := stream
  cases pd with
  | true => simp [wlfPoll, wlfGo, wlfEnd, h2]
  | false =>
    cases pevs with
    | nil => simp [wlfPoll, wlfGo, wlfEnd, h2]
    | cons ev rest =>
      cases ev with
      | item x => simp [fusePoll, streamPoll] at h1
      | notReady => simp [fusePoll, streamPoll] at h1
      | eos => simp [wlfPoll, wlfGo, wlfEnd, h2]
      | err e2 => simp [fusePoll, streamPoll] at h1

/-- Source arm `(Ok(Ready(Some(left_value))), Ok(Ready(Some(latest_value))), _)`:
the primary item is paired with the fresh secondary value, which also becomes
the new cache (replacing any previous cache). -/
theorem wlfPoll_arm_emitFresh {I J E : Type} {stream s1 : Bool × List (Ev I E)}
    {other o1 : Bool × List (Ev J E)} {x : I} {v : J} (lv : Option J)
    (h1 : fusePoll streamPoll stream = (.ok (.ready (some x)), s1))
    (h2 : fusePoll latestPoll other = (.ok (.ready (some v)), o1)) :
    wlfPoll (.inProgress stream other lv) =
      (.ok (.ready (some (x, v))), .inProgress s1 o1 (some v)) := by
  obtain ⟨h1a, h1b, h1c⟩ := fusePoll_stream_item h1
  obtain ⟨pd, pevs⟩ := stream
  obtain ⟨qd, qevs⟩ := s1
  simp only at h1a h1b h1c
  subst h1a h1b h1c
  simp [wlfPoll, wlfGo, h2]

/-- Source arm `(Ok(Ready(Some(left_value))), Ok(Ready(None)), Some(latest_value))`:
the primary item is paired with the cached secondary value even though the
secondary has ended this round; the cache is kept. -/
theorem wlfPoll_arm_emitCachedEnded {I J E : Type} {stream s1 : Bool × List (Ev I E)}
    {other o1 : Bool × List (Ev J E)} {x : I} (v : J)
    (h1 : fusePoll streamPoll stream = (.ok (.ready (some x)), s1))
    (h2 : fusePoll latestPoll other = (.ok (.ready none), o1)) :
    wlfPoll (.inProgress stream other (some v)) =
      (.ok (.ready (some (x, v))), .inProgress s1 o1 (some v)) := by
  obtain ⟨h1a, h1b, h1c⟩ := fusePoll_stream_item h1
  obtain ⟨pd, pevs⟩ := stream
  obtain ⟨qd, qevs⟩ := s1
  simp only at h1a h1b h1c
  subst h1a h1b h1c
  simp [wlfPoll, wlfGo, h2]

/-- Source arm `(Ok(Ready(Some(left_value))), Ok(NotReady), Some(latest_value))`:
the primary item is paired with the cached secondary value while the secondary
is not ready; the cache is kept. -/
theorem wlfPoll_arm_emitCachedNotReady {I J E : Type} {stream s1 : Bool × List (Ev I E)}
    {other o1 : Bool × List (Ev J E)} {x : I} (v : J)
    (h1 : fusePoll streamPoll stream = (.ok (.ready (some x)), s1))
    (h2 : fusePoll latestPoll other = (.ok .notReady, o1)) :
    wlfPoll (.inProgress stream other (some v)) =
      (.ok (.ready (some (x, v))), .inProgress s1 o1 (some v)) := by
  obtain ⟨h1a, h1b, h1c⟩ := fusePoll_stream_item h1
  obtain ⟨pd, pevs⟩ := stream
  obtain ⟨qd, qevs⟩ := s1
  simp only at h1a h1b h1c
  subst h1a h1b h1c
  simp [wlfPoll, wlfGo, h2]

/-- Source arm `(Ok(Async::NotReady), Ok(Async::Ready(latest_value)), _)`: the
poll returns not-ready and stores the secondary's `Ready` payload — an
`Option` that may be `None` — as the new cache.  When the fused secondary has
ended, this overwrites a previously cached value with `None`. -/
theorem wlfPoll_arm_notReadyStores {I J E : Type} {stream s1 : Bool × List (Ev I E)}
    {other o1 : Bool × List (Ev J E)} (lv lv2 : Option J)
    (h1 : fusePoll streamPoll stream = (.ok .notReady, s1))
    (h2 : fusePoll latestPoll other = (.ok (.ready lv2), o1)) :
    wlfPoll (.inProgress stream other lv) = (.ok .notReady, .inProgress s1 o1 lv2) := by
  obtain ⟨h1a, h1b, h1c⟩ := fusePoll_stream_notReady h1
  obtain ⟨pd, pevs⟩ := stream
  obtain ⟨qd, qevs⟩ := s1
  simp only at h1a h1b h1c
  subst h1a h1b h1c
  simp [wlfPoll, wlfGo, h2]

/-- Source arm `(Ok(Async::NotReady), Ok(Async::NotReady), latest_value)`:
nothing happens; the cache is kept unchanged. -/
theorem wlfPoll_arm_notReadyBoth {I J E : Type} {stream s1 : Bool × List (Ev I E)}
    {other o1 : Bool × List (Ev J E)} (lv : Option J)
    (h1 : fusePoll streamPoll stream = (.ok .notReady, s1))
    (h2 : fusePoll latestPoll other = (.ok .notReady, o1)) :
    wlfPoll (.inProgress stream other lv) = (.ok .notReady, .inProgress s1 o1 lv) := by
  obtain ⟨h1a, h1b, h1c⟩ := fusePoll_stream_notReady h1
  obtain ⟨pd, pevs⟩ := stream
  obtain ⟨qd, qevs⟩ := s1
  simp only at h1a h1b h1c
  subst h1a h1b h1c
  simp [wlfPoll, wlfGo, h2]

/-- Source arm `(Ok(Ready(Some(_))), Ok(NotReady), latest_value @ None)`: with
no cache and the secondary not ready, the primary item is dropped and the poll
returns not-ready. -/
theorem wlfPoll_arm_dropNoCache {I J E : Type} {stream s1 : Bool × List (Ev I E)}
    {other o1 : Bool × List (Ev J E)} {x : I}
    (h1 : fusePoll streamPoll stream = (.ok (.ready (some x)), s1))
    (h2 : fusePoll latestPoll other = (.ok .notReady, o1)) :
    wlfPoll (.inProgress stream other none) = (.ok .notReady, .inProgress s1 o1 none) := by
  obtain ⟨h1a, h1b, h1c⟩ := fusePoll_stream_item h1
  obtain ⟨pd, pevs⟩ := stream
  obtain ⟨qd, qevs⟩ := s1
  simp only at h1a h1b h1c
  subst h1a h1b h1c
  simp [wlfPoll, wlfGo, h2]

/-- Source arm `(Ok(Ready(Some(_))), Ok(Ready(None)), None)`: the secondary
has ended and no value was ever cached, so the primary item is discarded and
the loop re-enters with the successor states. -/
theorem wlfPoll_arm_drain {I J E : Type} {stream s1 : Bool × List (Ev I E)}
    {other o1 : Bool × List (Ev J E)} {x : I}
    (h1 : fusePoll streamPoll stream = (.ok (.ready (some x)), s1))
    (h2 : fusePoll latestPoll other = (.ok (.ready none), o1)) :
    wlfPoll (.inProgress stream other none) = wlfPoll (.inProgress s1 o1 none) := by
  obtain ⟨h1a, h1b, h1c⟩ := fusePoll_stream_item h1
  obtain ⟨pd, pevs⟩ := stream
  obtain ⟨qd, qevs⟩ := s1
  simp only at h1a h1b h1c
  subst h1a h1b h1c
  simp [wlfPoll, wlfGo, h2]

theorem wlfEnd_snd {I J E : Type} (other : Bool × List (Ev J E)) :
    (wlfEnd (I := I) (E := E) other).2 = WLFState.done := by
  unfold wlfEnd
  rcases h : fusePoll latestPoll other with ⟨r, o⟩
  cases r <;> simp

theorem wlfGo_terminal {I J E : Type} :
    ∀ (pevs : List (Ev I E)) (pd : Bool) (other : Bool × List (Ev J E)) (lv : Option J),
      ((∃ e : E, (wlfGo pd pevs other lv).1 = .error e) ∨
        (wlfGo pd pevs other lv).1 = .ok (.ready none)) →
      (wlfGo pd pevs other lv).2 = .done := by
  intro pevs
  induction pevs with
  | nil =>
    intro pd other lv h
    cases pd <;> simpa [wlfGo] using wlfEnd_snd (I := I) (E := E) other
  | cons ev rest ih =>
    intro pd other lv h
    cases pd with
    | true => simpa [wlfGo] using wlfEnd_snd (I := I) (E := E) other
    | false =>
      cases ev with
      | eos => simpa [wlfGo] using wlfEnd_snd (I := I) (E := E) other
      | err e2 => simp [wlfGo]
      | notReady =>
        rcases h2 : fusePoll latestPoll other with ⟨r2, o2⟩
        cases r2 with
        | error e2 => simp [wlfGo, h2]
        | ok a =>
          cases a with
          | ready lv2 => simp [wlfGo, h2] at h
          | notReady => simp [wlfGo, h2] at h
      | item x =>
        rcases h2 : fusePoll latestPoll other with ⟨r2, o2⟩
        cases r2 with
        | error e2 => simp [wlfGo, h2]
        | ok a =>
          cases a with
          | ready v2 =>
            cases v2 with
            | some v => simp [wlfGo, h2] at h
            | none =>
              cases lv with
              | some v => simp [wlfGo, h2] at h
              | none =>
                have := ih false o2 none (by simpa [wlfGo, h2] using h)
                simpa [wlfGo, h2] using this
          | notReady =>
            cases lv with
            | some v => simp [wlfGo, h2] at h
            | none => simp [wlfGo, h2] at h

/-- C6: whenever a poll of `WithLatestFrom` sees the primary yield an item
and either the secondary yields a fresh value in the same round, or a
secondary value is cached from a previous round while the secondary is
not-ready or has ended this round, the poll emits the pair of the primary
item with that secondary value; in the fresh-value case the fresh value
replaces the cache for subsequent rounds. -/
theorem withLatestFrom_emit_pairs {I J E : Type} :
    (∀ (stream s1 : Bool × List (Ev I E)) (other o1 : Bool × List (Ev J E))
        (lv : Option J) (x : I) (v : J),
        fusePoll streamPoll stream = (.ok (.ready (some x)), s1) →
        fusePoll latestPoll other = (.ok (.ready (some v)), o1) →
        wlfPoll (.inProgress stream other lv) =
          (.ok (.ready (some (x, v))), .inProgress s1 o1 (some v)))
    ∧ (∀ (stream s1 : Bool × List (Ev I E)) (other o1 : Bool × List (Ev J E))
        (x : I) (v : J),
        fusePoll streamPoll stream = (.ok (.ready (some x)), s1) →
        fusePoll latestPoll other = (.ok (.ready none), o1) →
        wlfPoll (.inProgress stream other (some v)) =
          (.ok (.ready (some (x, v))), .inProgress s1 o1 (some v)))
    ∧ (∀ (stream s1 : Bool × List (Ev I E)) (other o1 : Bool × List (Ev J E))
        (x : I) (v : J),
        fusePoll streamPoll stream = (.ok (.ready (some x)), s1) →
        fusePoll latestPoll other = (.ok .notReady, o1) →
        wlfPoll (.inProgress stream other (some v)) =
          (.ok (.ready (some (x, v))), .inProgress s1 o1 (some v))) :=
  ⟨fun _ _ _ _ lv _ _ h1 h2 => wlfPoll_arm_emitFresh lv h1 h2,
   fun _ _ _ _ _ v h1 h2 => wlfPoll_arm_emitCachedEnded v h1 h2,
   fun _ _ _ _ _ v h1 h2 => wlfPoll_arm_emitCachedNotReady v h1 h2⟩

theorem withLatestFrom_emit_pairs_witness :
    (wlfPoll (.inProgress (false, [Ev.item 1]) (false, [Ev.item (E := Unit) 5]) none) =
      (.ok (.ready (some (1, 5))), .inProgress (false, []) (false, []) (some 5)))
    ∧ (wlfPoll (.inProgress (false, [Ev.item 2]) (false, [Ev.eos (I := Nat) (E := Unit)]) (some 7)) =
      (.ok (.ready (some (2, 7))), .inProgress (false, []) (true, []) (some 7)))
    ∧ (wlfPoll (.inProgress (false, [Ev.item 3]) (false, [Ev.notReady (I := Nat) (E := Unit)]) (some 8)) =
      (.ok (.ready (some (3, 8))), .inProgress (false, []) (false, []) (some 8))) :=
  ⟨withLatestFrom_emit_pairs.1 _ _ _ _ none 1 5 rfl rfl,
   withLatestFrom_emit_pairs.2.1 _ _ _ _ 2 7 rfl rfl,
   withLatestFrom_emit_pairs.2.2 _ _ _ _ 3 8 rfl rfl⟩

/-- C7 counterexample: the claim "once any secondary value has been cached or
emitted, no subsequent primary item is ever silently discarded" is false.
Primary script: item `0`, not-ready, item `1`, end.  Secondary script: item
`9`, then exhausted.  Poll 1 emits `(0, 9)` and caches `9`.  Poll 2 hits the
source arm `(Ok(NotReady), Ok(Ready(latest_value)), _)` with the fused
secondary reporting `Ready(None)`, which stores `None` as the new cache,
erasing the cached `9`.  Poll 3 then yields primary item `1` with the
secondary ended and no cache, takes the no-emission draining branch,
discards item `1`, and ends the join; every later poll returns
end-of-sequence, so item `1` — which arrived after `9` was cached and
emitted — is never paired with anything. -/
theorem withLatestFrom_discard_after_cache_cex :
    (wlfPoll (.inProgress (false, [Ev.item 0, Ev.notReady, Ev.item 1, Ev.eos])
        (false, [Ev.item (E := Unit) 9]) none) =
      (.ok (.ready (some (0, 9))),
        .inProgress (false, [Ev.notReady, Ev.item 1, Ev.eos]) (false, []) (some 9)))
    ∧ (wlfPoll (.inProgress (false, [Ev.notReady, Ev.item 1, Ev.eos])
        (false, ([] : List (Ev Nat Unit))) (some 9)) =
      (.ok .notReady, .inProgress (false, [Ev.item 1, Ev.eos]) (true, []) none))
    ∧ (wlfPoll (.inProgress (false, [Ev.item 1, Ev.eos])
        (true, ([] : List (Ev Nat Unit))) none) =
      (.ok (.ready none), .done))
    ∧ (wlfPoll (I := Nat) (J := Nat) (E := Unit) .done = (.ok (.ready none), .done)) :=
  ⟨rfl, rfl, rfl, rfl⟩

/-- C7 (amended): the no-emission draining branch is reached only when the
*currently* cached value is `None`: in any single poll round in which a value
`v` is cached, the primary yields an item and neither side errors, a pair is
emitted (first conjunct).  But "no secondary value has ever been cached" does
not follow: the cache can revert to `None` after having been set, because a
round in which the primary is not-ready and the fused secondary reports
end-of-sequence stores the secondary's `Ready` payload `None` as the new
cache (second conjunct), after which later primary items can be silently
discarded. -/
theorem withLatestFrom_cached_round_emits {I J E : Type} :
    (∀ (stream s1 : Bool × List (Ev I E)) (other o1 : Bool × List (Ev J E))
        (x : I) (v : J) (r2 : Async (Option J)),
        fusePoll streamPoll stream = (.ok (.ready (some x)), s1) →
        fusePoll latestPoll other = (.ok r2, o1) →
        wlfPoll (.inProgress stream other (some v)) =
          (.ok (.ready (some (x, match r2 with | .ready (some w) => w | _ => v))),
            .inProgress s1 o1 (some (match r2 with | .ready (some w) => w | _ => v))))
    ∧ (∀ (stream s1 : Bool × List (Ev I E)) (other o1 : Bool × List (Ev J E)) (v : J),
        fusePoll streamPoll stream = (.ok .notReady, s1) →
        fusePoll latestPoll other = (.ok (.ready none), o1) →
        wlfPoll (.inProgress stream other (some v)) =
          (.ok .notReady, .inProgress s1 o1 none)) := by
  constructor
  · intro stream s1 other o1 x v r2 h1 h2
    cases r2 with
    | ready v2 =>
      cases v2 with
      | some w => exact wlfPoll_arm_emitFresh (some v) h1 h2
      | none => exact wlfPoll_arm_emitCachedEnded v h1 h2
    | notReady => exact wlfPoll_arm_emitCachedNotReady v h1 h2
  · intro stream s1 other o1 v h1 h2
    exact wlfPoll_arm_notReadyStores (some v) none h1 h2

theorem withLatestFrom_cached_round_emits_witness :
    (wlfPoll (.inProgress (false, [Ev.item 4]) (false, [Ev.eos (I := Nat) (E := Unit)]) (some 6)) =
      (.ok (.ready (some (4, 6))), .inProgress (false, []) (true, []) (some 6)))
    ∧ (wlfPoll (.inProgress (false, [Ev.notReady (I := Nat) (E := Unit)])
        (false, ([] : List (Ev Nat Unit))) (some 6)) =
      (.ok .notReady, .inProgress (false, []) (true, []) none)) :=
  ⟨withLatestFrom_cached_round_emits.1 _ _ _ _ 4 6 (.ready none) rfl rfl,
   withLatestFrom_cached_round_emits.2 _ _ _ _ 6 rfl rfl⟩

/-- C8: `WithLatestFrom`'s terminal states are permanent.  If a poll of an
in-progress join returns an error (from either side), the successor state is
`Done`; if the primary reports end-of-sequence (and the secondary does not
error, errors having priority in the source's match), the poll returns
end-of-sequence with successor state `Done`, whatever the secondary produced;
and a poll of `Done` returns end-of-sequence and stays `Done`, so every
subsequent poll returns end-of-sequence. -/
theorem withLatestFrom_terminal {I J E : Type} :
    (∀ (stream : Bool × List (Ev I E)) (other : Bool × List (Ev J E))
        (lv : Option J) (e : E) (s' : WLFState I J E),
        wlfPoll (.inProgress stream other lv) = (.error e, s') → s' = .done)
    ∧ (∀ (stream s1 : Bool × List (Ev I E)) (other o1 : Bool × List (Ev J E))
        (r2 : Async (Option J)) (lv : Option J),
        fusePoll streamPoll stream = (.ok (.ready none), s1) →
        fusePoll latestPoll other = (.ok r2, o1) →
        wlfPoll (.inProgress stream other lv) = (.ok (.ready none), .done))
    ∧ (wlfPoll (I := I) (J := J) (E := E) .done = (.ok (.ready none), .done)) := by
  refine ⟨?_, fun _ _ _ _ _ lv h1 h2 => wlfPoll_arm_primaryEnd lv h1 h2, rfl⟩
  intro stream other lv e s' h
  rw [show wlfPoll (WLFState.inProgress stream other lv) =
      wlfGo stream.1 stream.2 other lv from rfl] at h
  have h2 := wlfGo_terminal stream.2 stream.1 other lv (Or.inl ⟨e, by rw [h]⟩)
  rw [h] at h2
  exact h2

theorem withLatestFrom_terminal_witness :
    (WLFState.done (I := Nat) (J := Nat) (E := Unit) = .done)
    ∧ (wlfPoll (.inProgress (false, [Ev.eos (E := Unit) (I := Nat)])
        (false, ([] : List (Ev Nat Unit))) none) = (.ok (.ready none), .done)) :=
  ⟨withLatestFrom_terminal.1 (false, [Ev.err ()]) (false, []) none () .done rfl,
   withLatestFrom_terminal.2.1 (false, [Ev.eos]) (true, []) (false, []) (true, [])
     (.ready none) none rfl rfl⟩

/-! ## `GroupBy` (`src/group_by.rs`)

`GroupByState<K, S, F>` holds the underlying stream, the classifier
`callback`, `pending_items: Vec<Option<VecDeque<S::Item>>>` (a slot per
discovered group, `None` once that group's handle has been dropped),
`group_indices: HashMap<K, usize>` and `pending_groups:
Vec<Result<(K, Group), S::Error>>`.  The embedding models the underlying
stream as an explicit event-script argument threaded through every operation
(each poll of the source consumes its head), a `VecDeque` as a list with
`push_back = · ++ [x]` and `pop_front` taking the head, the `HashMap` as an
association list inserted at the front (keys are inserted at most once), and
a `Group` handle by its `index` field.  Rust `panic` sites — the
`unreachable!` for a dropped group's slot and out-of-bounds `Vec` indexing —
are modelled by returning `none`; a returned `some` carries the Rust result
and the successor state.

Ghost fields (not present in the Rust struct, never read by the operations):
`consumed` records the items popped off the source so far in order,
`delivered` records per slot the items returned by that group's polls,
`announced` records the keys of `(Key, Group)` pairs returned by
`poll_next_group`, and `owned` records the indices of the `Group` handles
currently held by callers (created and not yet dropped, excluding handles
still buffered inside `pending_groups`). -/

/-- The shared `GroupByState`, minus the stream (threaded separately) and
`callback` (passed as a function parameter), plus ghost fields. -/
structure GroupByState (K I E : Type) where
  pending_items : List (Option (List I))
  group_indices : List (K × Nat)
  pending_groups : List (Except E (K × Nat))
  consumed : List I
  delivered : List (List I)
  announced : List K
  owned : List Nat
deriving Repr

/-- `HashMap::get` on the association-list model: first binding wins. -/
def lookupIdx {K : Type} [DecidableEq K] (k : K) : List (K × Nat) → Option Nat
  | [] => none
  | (k2, i) :: rest => if k = k2 then some i else lookupIdx k rest

/-- The state `group_by` starts from: every field empty. -/
def initGroupBy {K I E : Type} : GroupByState K I E :=
  ⟨[], [], [], [], [], [], []⟩

/-- The source-driving loop of `poll_next_group_item` (`src/group_by.rs`,
lines 41–96), entered with slot `index`'s queue empty.  An item for this
slot is returned; an item for another live slot is appended to that slot's
queue; an item for a dropped slot is discarded; an item with a new key
allocates a slot at index `pending_items.len()`, buffers the announcement in
`pending_groups`, and driving continues.  A source error is pushed onto
`pending_groups` and reported as `Ok(Ready(None))`; not-ready and
end-of-stream are returned as-is. -/
def driveItem {K I E : Type} [DecidableEq K] (f : I → K) (index : Nat) :
    List (Ev I E) → GroupByState K I E →
      Option (Except Unit (Async (Option I)) × List (Ev I E) × GroupByState K I E)
  | [], s => some (.ok (.ready none), [], s)
  | Ev.notReady :: rest, s => some (.ok .notReady, rest, s)
  | Ev.eos :: rest, s => some (.ok (.ready none), rest, s)
  | Ev.err e :: rest, s =>
      some (.ok (.ready none), rest,
        { s with pending_groups := s.pending_groups ++ [.error e] })
  | Ev.item x :: rest, s =>
    let k := f x
    let s1 := { s with consumed := s.consumed ++ [x] }
    match lookupIdx k s1.group_indices with
    | some j =>
      if j = index then
        some (.ok (.ready (some x)), rest,
          { s1 with delivered := s1.delivered.set index (s1.delivered.getD index [] ++ [x]) })
      else
        match s1.pending_items[j]? with
        | some (some q) =>
            driveItem f index rest
              { s1 with pending_items := s1.pending_items.set j (some (q ++ [x])) }
        | some none => driveItem f index rest s1
        | none => none
    | none =>
      let n := s1.pending_items.length
      driveItem f index rest
        { s1 with
            pending_items := s1.pending_items ++ [some [x]],
            group_indices := (k, n) :: s1.group_indices,
            pending_groups := s1.pending_groups ++ [.ok (k, n)],
            delivered := s1.delivered ++ [[]] }

/-- `poll_next_group_item` (`src/group_by.rs`, lines 20–97): pop the front of
slot `index`'s queue if non-empty, else drive the source.  `none` models the
`unreachable!` hit when the slot is a tombstone (and out-of-bounds indexing). -/
def pollNextGroupItem {K I E : Type} [DecidableEq K] (f : I → K) (index : Nat)
    (evs : List (Ev I E)) (s : GroupByState K I E) :
    Option (Except Unit (Async (Option I)) × List (Ev I E) × GroupByState K I E) :=
  match s.pending_items[index]? with
  | none => none
  | some none => none
  | some (some (x :: q)) =>
      some (.ok (.ready (some x)), evs,
        { s with
            pending_items := s.pending_items.set index (some q),
            delivered := s.delivered.set index (s.delivered.getD index [] ++ [x]) })
  | some (some []) => driveItem f index evs s

/-- The source-driving loop of `poll_next_group` (`src/group_by.rs`, lines
112–151).  An item for an existing live slot is appended to that slot's
queue and driving continues; an item for a dropped slot is discarded (its
`if let Some(ref mut ...)` does nothing) and driving continues; an item with
a new key allocates a slot and the `(Key, Group)` pair is returned at once.
Errors, not-ready and end-of-stream propagate through `try_ready!`. -/
def driveGroup {K I E : Type} [DecidableEq K] (f : I → K) :
    List (Ev I E) → GroupByState K I E →
      Option (Except E (Async (Option (K × Nat))) × List (Ev I E) × GroupByState K I E)
  | [], s => some (.ok (.ready none), [], s)
  | Ev.notReady :: rest, s => some (.ok .notReady, rest, s)
  | Ev.eos :: rest, s => some (.ok (.ready none), rest, s)
  | Ev.err e :: rest, s => some (.error e, rest, s)
  | Ev.item x :: rest, s =>
    let k := f x
    let s1 := { s with consumed := s.consumed ++ [x] }
    match lookupIdx k s1.group_indices with
    | some j =>
      match s1.pending_items[j]? with
      | some (some q) =>
          driveGroup f rest
            { s1 with pending_items := s1.pending_items.set j (some (q ++ [x])) }
      | some none => driveGroup f rest s1
      | none => none
    | none =>
      let n := s1.pending_items.length
      some (.ok (.ready (some (k, n))), rest,
        { s1 with
            pending_items := s1.pending_items ++ [some [x]],
            group_indices := (k, n) :: s1.group_indices,
            delivered := s1.delivered ++ [[]],
            announced := s1.announced ++ [k],
            owned := s1.owned ++ [n] })

/-- `poll_next_group` (`src/group_by.rs`, lines 99–151): `Vec::pop` removes
and delivers the *last* buffered announcement if any (an `Ok` pair hands its
`Group` handle to the caller, an `Err` propagates the captured source error),
else the source is driven. -/
def pollNextGroup {K I E : Type} [DecidableEq K] (f : I → K)
    (evs : List (Ev I E)) (s : GroupByState K I E) :
    Option (Except E (Async (Option (K × Nat))) × List (Ev I E) × GroupByState K I E) :=
  match s.pending_groups.getLast? with
  | some (.ok (k, i)) =>
      some (.ok (.ready (some (k, i))), evs,
        { s with
            pending_groups := s.pending_groups.dropLast,
            announced := s.announced ++ [k],
            owned := s.owned ++ [i] })
  | some (.error e) =>
      some (.error e, evs, { s with pending_groups := s.pending_groups.dropLast })
  | none => driveGroup f evs s

/-- `Drop for Group` (`src/group_by.rs`, lines 166–172): the destructor
replaces the slot's queue with `None` under the shared lock. -/
def dropGroup {K I E : Type} (index : Nat) (s : GroupByState K I E) : GroupByState K I E :=
  { s with
      pending_items := s.pending_items.set index none,
      owned := s.owned.erase index }

/-- One externally drivable operation on the shared state: polling the
`GroupBy` stream, polling a `Group` handle the caller owns, or dropping such
a handle.  Poll steps exist only when the Rust code returns (no panic). -/
inductive Step {K I E : Type} [DecidableEq K] (f : I → K) :
    List (Ev I E) × GroupByState K I E → List (Ev I E) × GroupByState K I E → Prop
  | pollItem {evs s i r evs' s'} : i ∈ s.owned →
      pollNextGroupItem f i evs s = some (r, evs', s') → Step f (evs, s) (evs', s')
  | pollGroup {evs s r evs' s'} :
      pollNextGroup f evs s = some (r, evs', s') → Step f (evs, s) (evs', s')
  | dropStep {evs s i} : i ∈ s.owned → Step f (evs, s) (evs, dropGroup i s)

/-- States reachable from `group_by(stream, f)` on some source script. -/
inductive Reach {K I E : Type} [DecidableEq K] (f : I → K) :
    List (Ev I E) × GroupByState K I E → Prop
  | init (evs : List (Ev I E)) : Reach f (evs, initGroupBy)
  | step {p q} : Reach f p → Step f p q → Reach f q

/-! ### List helper lemmas -/

theorem lt_of_getElem?_some {α : Type} {l : List α} {i : Nat} {a : α}
    (h : l[i]? = some a) : i < l.length := by
  by_contra hn
  rw [List.getElem?_eq_none (Nat.le_of_not_lt hn)] at h
  exact Option.noConfusion h

theorem getD_set_self {α : Type} {l : List α} {i : Nat} (a d : α) (h : i < l.length) :
    (l.set i a).getD i d = a := by
  rw [List.getD_eq_getElem?_getD, List.getElem?_set_eq_of_lt a h, Option.getD_some]

theorem getD_set_ne {α : Type} {l : List α} {i j : Nat} (a d : α) (h : i ≠ j) :
    (l.set i a).getD j d = l.getD j d := by
  rw [List.getD_eq_getElem?_getD, List.getElem?_set_ne h, ← List.getD_eq_getElem?_getD]

theorem getD_append_left {α : Type} {l r : List α} {i : Nat} (d : α) (h : i < l.length) :
    (l ++ r).getD i d = l.getD i d := by
  rw [List.getD_eq_getElem?_getD, List.getElem?_append_left h, ← List.getD_eq_getElem?_getD]

theorem getD_concat_length {α : Type} {l : List α} {i : Nat} (a d : α) (h : i = l.length) :
    (l ++ [a]).getD i d = a := by
  subst h
  rw [List.getD_eq_getElem?_getD, List.getElem?_concat_length, Option.getD_some]

theorem nodup_concat_of {α : Type} {l : List α} {a : α}
    (hl : l.Nodup) (ha : a ∉ l) : (l ++ [a]).Nodup := by
  rw [List.nodup_append]
  exact ⟨hl, List.nodup_singleton a, fun x hx hxa => ha ((List.mem_singleton.1 hxa) ▸ hx)⟩

theorem perm_append_concat {α : Type} (a b : List α) (x : α) :
    ((a ++ [x]) ++ b).Perm (a ++ (b ++ [x])) := by
  rw [List.append_assoc]
  exact List.Perm.append_left a (List.perm_append_comm)

/-! ### `lookupIdx` lemmas -/

theorem lookupIdx_mem {K : Type} [DecidableEq K] {k : K} {i : Nat} :
    ∀ {l : List (K × Nat)}, lookupIdx k l = some i → (k, i) ∈ l := by
  intro l
  induction l with
  | nil => intro h; exact Option.noConfusion h
  | cons p rest ih =>
    obtain ⟨k2, i2⟩ := p
    intro h
    rw [lookupIdx] at h
    by_cases hk : k = k2
    · simp only [if_pos hk] at h
      subst hk
      obtain rfl : i2 = i := Option.some.inj h
      exact List.mem_cons_self _ _
    · simp only [if_neg hk] at h
      exact List.mem_cons_of_mem _ (ih h)

theorem lookupIdx_none_iff {K : Type} [DecidableEq K] {k : K} :
    ∀ {l : List (K × Nat)}, lookupIdx k l = none ↔ ∀ p ∈ l, p.1 ≠ k := by
  intro l
  induction l with
  | nil => simp [lookupIdx]
  | cons p rest ih =>
    obtain ⟨k2, i2⟩ := p
    rw [lookupIdx]
    by_cases hk : k = k2
    · subst hk
      simp
    · simp only [if_neg hk, ih]
      constructor
      · intro h q hq
        rcases List.mem_cons.1 hq with rfl | hq2
        · simpa using fun hc => hk hc.symm
        · exact h q hq2
      · intro h q hq
        exact h q (List.mem_cons_of_mem _ hq)

theorem lookupIdx_inj {K : Type} [DecidableEq K] {l : List (K × Nat)}
    (hnd : (l.map Prod.snd).Nodup) {k k2 : K} {i : Nat}
    (h1 : lookupIdx k l = some i) (h2 : lookupIdx k2 l = some i) : k = k2 := by
  induction l with
  | nil => exact Option.noConfusion h1
  | cons p rest ih =>
    obtain ⟨k3, i3⟩ := p
    rw [List.map_cons, List.nodup_cons] at hnd
    rw [lookupIdx] at h1 h2
    by_cases ha : k = k3 <;> by_cases hb : k2 = k3
    · exact ha.trans hb.symm
    · rw [if_pos ha] at h1
      rw [if_neg hb] at h2
      have hi : i3 = i := Option.some.inj h1
      exact absurd (List.mem_map.2 ⟨(k2, i), lookupIdx_mem h2, hi.symm⟩) hnd.1
    · rw [if_neg ha] at h1
      rw [if_pos hb] at h2
      have hi : i3 = i := Option.some.inj h2
      exact absurd (List.mem_map.2 ⟨(k, i), lookupIdx_mem h1, hi.symm⟩) hnd.1
    · rw [if_neg ha] at h1
      rw [if_neg hb] at h2
      exact ih hnd.2 h1 h2

theorem lookupIdx_cons_ne {K : Type} [DecidableEq K] {k k2 : K} {n : Nat}
    (l : List (K × Nat)) (h : k ≠ k2) :
    lookupIdx k ((k2, n) :: l) = lookupIdx k l := by
  rw [lookupIdx, if_neg h]

/-! ### The shared-state invariant -/

/-- The keys of the `Ok` announcements buffered in `pending_groups`. -/
def pendingOkKeys {K E : Type} (pg : List (Except E (K × Nat))) : List K :=
  pg.filterMap fun e => match e with | .ok (k, _) => some k | .error _ => none

/-- The slot indices of the `Ok` announcements buffered in `pending_groups`. -/
def pendingOkIdxs {K E : Type} (pg : List (Except E (K × Nat))) : List Nat :=
  pg.filterMap fun e => match e with | .ok (_, i) => some i | .error _ => none

/-- Invariant of the shared `GroupByState`, preserved by every externally
drivable operation. -/
structure GroupInv {K I E : Type} [DecidableEq K] (f : I → K)
    (s : GroupByState K I E) : Prop where
  len_delivered : s.delivered.length = s.pending_items.length
  idx_lt : ∀ p ∈ s.group_indices, p.2 < s.pending_items.length
  keys_nodup : (s.group_indices.map Prod.fst).Nodup
  idxs_nodup : (s.group_indices.map Prod.snd).Nodup
  partition : ∀ k i, lookupIdx k s.group_indices = some i →
    ∀ q, s.pending_items[i]? = some (some q) →
      s.delivered.getD i [] ++ q = s.consumed.filter fun y => decide (f y = k)
  fresh_key : ∀ k, lookupIdx k s.group_indices = none →
      (s.consumed.filter fun y => decide (f y = k)) = []
  owned_live : ∀ i ∈ s.owned, ∃ q, s.pending_items[i]? = some (some q)
  pending_live : ∀ i ∈ pendingOkIdxs s.pending_groups,
      ∃ q, s.pending_items[i]? = some (some q)
  ann_nodup : (s.announced ++ pendingOkKeys s.pending_groups).Nodup
  ann_keys : ∀ k ∈ s.announced ++ pendingOkKeys s.pending_groups,
      ∃ i, lookupIdx k s.group_indices = some i
  own_nodup : (s.owned ++ pendingOkIdxs s.pending_groups).Nodup

theorem pendingOkKeys_concat_err {K E : Type} (pg : List (Except E (K × Nat))) (e : E) :
    pendingOkKeys (pg ++ [.error e]) = pendingOkKeys pg := by
  simp [pendingOkKeys, List.filterMap_append]

theorem pendingOkIdxs_concat_err {K E : Type} (pg : List (Except E (K × Nat))) (e : E) :
    pendingOkIdxs (pg ++ [.error e]) = pendingOkIdxs pg := by
  simp [pendingOkIdxs, List.filterMap_append]

theorem pendingOkKeys_concat_ok {K E : Type} (pg : List (Except E (K × Nat)))
    (k : K) (i : Nat) :
    pendingOkKeys (pg ++ [.ok (k, i)]) = pendingOkKeys pg ++ [k] := by
  simp [pendingOkKeys, List.filterMap_append]

theorem pendingOkIdxs_concat_ok {K E : Type} (pg : List (Except E (K × Nat)))
    (k : K) (i : Nat) :
    pendingOkIdxs (pg ++ [.ok (k, i)]) = pendingOkIdxs pg ++ [i] := by
  simp [pendingOkIdxs, List.filterMap_append]

/-- Pushing a captured error onto `pending_groups` disturbs nothing. -/
theorem inv_pushErr {K I E : Type} [DecidableEq K] {f : I → K}
    {s : GroupByState K I E} (hv : GroupInv f s) (e : E) :
    GroupInv f { s with pending_groups := s.pending_groups ++ [.error e] } := by
  obtain ⟨h1, h2, h3, h4, h5, h6, h7, h8, h9, h10, h11⟩ := hv
  exact ⟨h1, h2, h3, h4, h5, h6, h7,
    by simpa [pendingOkIdxs_concat_err] using h8,
    by simpa [pendingOkKeys_concat_err] using h9,
    by simpa [pendingOkKeys_concat_err] using h10,
    by simpa [pendingOkIdxs_concat_err] using h11⟩

/-- Popping the front item of a live slot's queue onto its `delivered` ghost
preserves the invariant. -/
theorem inv_popFront {K I E : Type} [DecidableEq K] {f : I → K}
    {s : GroupByState K I E} {i : Nat} {x : I} {q : List I}
    (hv : GroupInv f s) (hq : s.pending_items[i]? = some (some (x :: q))) :
    GroupInv f { s with
      pending_items := s.pending_items.set i (some q),
      delivered := s.delivered.set i (s.delivered.getD i [] ++ [x]) } := by
  have hlt : i < s.pending_items.length := lt_of_getElem?_some hq
  have hltd : i < s.delivered.length := hv.len_delivered ▸ hlt
  refine ⟨?_, ?_, hv.keys_nodup, hv.idxs_nodup, ?_, hv.fresh_key, ?_, ?_,
    hv.ann_nodup, hv.ann_keys, hv.own_nodup⟩
  · simp [hv.len_delivered]
  · simpa using hv.idx_lt
  · intro k j hj r hr
    simp only at hr ⊢
    by_cases hij : i = j
    · subst hij
      rw [List.getElem?_set_eq_of_lt _ hlt] at hr
      obtain rfl : q = r := by simpa using hr
      rw [getD_set_self _ _ hltd, List.append_assoc]
      exact hv.partition k i hj (x :: q) hq
    · rw [List.getElem?_set_ne hij] at hr
      rw [getD_set_ne _ _ hij]
      exact hv.partition k j hj r hr
  · intro j hj
    simp only at hj ⊢
    by_cases hij : i = j
    · subst hij
      exact ⟨q, List.getElem?_set_eq_of_lt _ hlt⟩
    · rw [List.getElem?_set_ne hij]
      exact hv.owned_live j hj
  · intro j hj
    simp only at hj ⊢
    by_cases hij : i = j
    · subst hij
      exact ⟨q, List.getElem?_set_eq_of_lt _ hlt⟩
    · rw [List.getElem?_set_ne hij]
      exact hv.pending_live j hj

/-- Consuming an item that is classified to a tombstoned slot (it is
discarded) preserves the invariant. -/
theorem inv_discard {K I E : Type} [DecidableEq K] {f : I → K}
    {s : GroupByState K I E} {x : I} {j : Nat}
    (hv : GroupInv f s) (hj : lookupIdx (f x) s.group_indices = some j)
    (hq : s.pending_items[j]? = some none) :
    GroupInv f { s with consumed := s.consumed ++ [x] } := by
  refine ⟨hv.len_delivered, hv.idx_lt, hv.keys_nodup, hv.idxs_nodup, ?_, ?_,
    hv.owned_live, hv.pending_live, hv.ann_nodup, hv.ann_keys, hv.own_nodup⟩
  · intro k i hk r hr
    simp only at hr ⊢
    have hne : f x ≠ k := by
      rintro rfl
      rw [hj] at hk
      obtain rfl : j = i := Option.some.inj hk
      rw [hq] at hr
      exact Option.noConfusion (Option.some.inj hr)
    rw [List.filter_append]
    simp only [List.filter_cons, List.filter_nil, decide_eq_true_eq]
    rw [if_neg hne, List.append_nil]
    exact hv.partition k i hk r hr
  · intro k hk
    simp only
    have hne : f x ≠ k := by
      rintro rfl
      rw [hj] at hk
      exact Option.noConfusion hk
    rw [List.filter_append]
    simp only [List.filter_cons, List.filter_nil, decide_eq_true_eq]
    rw [if_neg hne, List.append_nil]
    exact hv.fresh_key k hk

/-- Consuming an item classified to another live slot and appending it to
that slot's queue preserves the invariant. -/
theorem inv_enqueue {K I E : Type} [DecidableEq K] {f : I → K}
    {s : GroupByState K I E} {x : I} {j : Nat} {q : List I}
    (hv : GroupInv f s) (hj : lookupIdx (f x) s.group_indices = some j)
    (hq : s.pending_items[j]? = some (some q)) :
    GroupInv f { s with
      consumed := s.consumed ++ [x],
      pending_items := s.pending_items.set j (some (q ++ [x])) } := by
  have hlt : j < s.pending_items.length := lt_of_getElem?_some hq
  refine ⟨?_, ?_, hv.keys_nodup, hv.idxs_nodup, ?_, ?_, ?_, ?_,
    hv.ann_nodup, hv.ann_keys, hv.own_nodup⟩
  · simp [hv.len_delivered]
  · simpa using hv.idx_lt
  · intro k i hk r hr
    simp only at hr ⊢
    rw [List.filter_append]
    simp only [List.filter_cons, List.filter_nil, decide_eq_true_eq]
    by_cases hij : j = i
    · subst hij
      have hkx : k = f x := lookupIdx_inj hv.idxs_nodup hk hj
      subst hkx
      rw [List.getElem?_set_eq_of_lt _ hlt] at hr
      obtain rfl : q ++ [x] = r := by simpa using hr
      rw [if_pos rfl, ← List.append_assoc]
      exact congrArg (· ++ [x]) (hv.partition (f x) j hk q hq)
    · have hne : f x ≠ k := by
        rintro rfl
        exact hij (Option.some.inj (hj.symm.trans hk))
      rw [List.getElem?_set_ne hij] at hr
      rw [if_neg hne, List.append_nil]
      exact hv.partition k i hk r hr
  · intro k hk
    simp only
    have hne : f x ≠ k := by
      rintro rfl
      rw [hj] at hk
      exact Option.noConfusion hk
    rw [List.filter_append]
    simp only [List.filter_cons, List.filter_nil, decide_eq_true_eq]
    rw [if_neg hne, List.append_nil]
    exact hv.fresh_key k hk
  · intro i hi
    simp only at hi ⊢
    by_cases hij : j = i
    · subst hij
      exact ⟨q ++ [x], List.getElem?_set_eq_of_lt _ hlt⟩
    · rw [List.getElem?_set_ne hij]
      exact hv.owned_live i hi
  · intro i hi
    simp only at hi ⊢
    by_cases hij : j = i
    · subst hij
      exact ⟨q ++ [x], List.getElem?_set_eq_of_lt _ hlt⟩
    · rw [List.getElem?_set_ne hij]
      exact hv.pending_live i hi

/-- Consuming an item classified to the polled slot itself (whose queue is
empty) and returning it directly preserves the invariant. -/
theorem inv_deliverOwn {K I E : Type} [DecidableEq K] {f : I → K}
    {s : GroupByState K I E} {x : I} {i : Nat}
    (hv : GroupInv f s) (hj : lookupIdx (f x) s.group_indices = some i)
    (hq : s.pending_items[i]? = some (some [])) :
    GroupInv f { s with
      consumed := s.consumed ++ [x],
      delivered := s.delivered.set i (s.delivered.getD i [] ++ [x]) } := by
  have hlt : i < s.pending_items.length := lt_of_getElem?_some hq
  have hltd : i < s.delivered.length := hv.len_delivered ▸ hlt
  refine ⟨?_, hv.idx_lt, hv.keys_nodup, hv.idxs_nodup, ?_, ?_,
    hv.owned_live, hv.pending_live, hv.ann_nodup, hv.ann_keys, hv.own_nodup⟩
  · simp [hv.len_delivered]
  · intro k i2 hk r hr
    simp only at hr ⊢
    rw [List.filter_append]
    simp only [List.filter_cons, List.filter_nil, decide_eq_true_eq]
    by_cases hij : i = i2
    · subst hij
      have hkx : k = f x := lookupIdx_inj hv.idxs_nodup hk hj
      subst hkx
      rw [hq] at hr
      obtain rfl : ([] : List I) = r := by simpa using hr
      rw [if_pos rfl, getD_set_self _ _ hltd, List.append_nil]
      have := hv.partition (f x) i hk [] hq
      rw [List.append_nil] at this
      rw [this]
    · have hne : f x ≠ k := by
        rintro rfl
        exact hij (Option.some.inj (hj.symm.trans hk))
      rw [if_neg hne, List.append_nil, getD_set_ne _ _ hij]
      exact hv.partition k i2 hk r hr
  · intro k hk
    simp only
    have hne : f x ≠ k := by
      rintro rfl
      rw [hj] at hk
      exact Option.noConfusion hk
    rw [List.filter_append]
    simp only [List.filter_cons, List.filter_nil, decide_eq_true_eq]
    rw [if_neg hne, List.append_nil]
    exact hv.fresh_key k hk

/-- Facts shared by the two slot-allocation transitions: properties of the
state parts that both update the same way (everything except the
announcement bookkeeping). -/
theorem newSlot_core {K I E : Type} [DecidableEq K] {f : I → K}
    {s : GroupByState K I E} {x : I}
    (hv : GroupInv f s) (hnone : lookupIdx (f x) s.group_indices = none) :
    ((s.delivered ++ [[]]).length = (s.pending_items ++ [some [x]]).length)
    ∧ (∀ p ∈ (f x, s.pending_items.length) :: s.group_indices,
        p.2 < (s.pending_items ++ [some [x]]).length)
    ∧ ((((f x, s.pending_items.length) :: s.group_indices).map Prod.fst).Nodup)
    ∧ ((((f x, s.pending_items.length) :: s.group_indices).map Prod.snd).Nodup)
    ∧ (∀ k i, lookupIdx k ((f x, s.pending_items.length) :: s.group_indices) = some i →
        ∀ q, (s.pending_items ++ [some [x]])[i]? = some (some q) →
          (s.delivered ++ [[]]).getD i [] ++ q =
            (s.consumed ++ [x]).filter fun y => decide (f y = k))
    ∧ (∀ k, lookupIdx k ((f x, s.pending_items.length) :: s.group_indices) = none →
        ((s.consumed ++ [x]).filter fun y => decide (f y = k)) = [])
    ∧ (∀ i ∈ s.owned, ∃ q, (s.pending_items ++ [some [x]])[i]? = some (some q))
    ∧ (∀ i ∈ pendingOkIdxs s.pending_groups,
        ∃ q, (s.pending_items ++ [some [x]])[i]? = some (some q))
    ∧ (f x ∉ s.announced ++ pendingOkKeys s.pending_groups)
    ∧ (s.pending_items.length ∉ s.owned ++ pendingOkIdxs s.pending_groups)
    ∧ (∀ k ∈ s.announced ++ pendingOkKeys s.pending_groups,
        ∃ i, lookupIdx k ((f x, s.pending_items.length) :: s.group_indices) = some i) := by
  have hkeys := lookupIdx_none_iff.1 hnone
  refine ⟨?_, ?_, ?_, ?_, ?_, ?_, ?_, ?_, ?_, ?_, ?_⟩
  · simp [hv.len_delivered]
  · intro p hp
    rcases List.mem_cons.1 hp with rfl | hp2
    · simp
    · simp only [List.length_append, List.length_singleton]
      exact Nat.lt_succ_of_lt (hv.idx_lt p hp2)
  · rw [List.map_cons, List.nodup_cons]
    refine ⟨?_, hv.keys_nodup⟩
    intro hmem
    obtain ⟨p, hp, hp1⟩ := List.mem_map.1 hmem
    exact hkeys p hp hp1
  · rw [List.map_cons, List.nodup_cons]
    refine ⟨?_, hv.idxs_nodup⟩
    intro hmem
    obtain ⟨p, hp, hp1⟩ := List.mem_map.1 hmem
    exact Nat.lt_irrefl _ (hp1 ▸ hv.idx_lt p hp)
  · intro k i hk r hr
    rw [List.filter_append]
    simp only [List.filter_cons, List.filter_nil, decide_eq_true_eq]
    rw [lookupIdx] at hk
    by_cases hkx : k = f x
    · subst hkx
      rw [if_pos rfl] at hk
      obtain rfl : s.pending_items.length = i := Option.some.inj hk
      rw [List.getElem?_concat_length] at hr
      obtain rfl : [x] = r := by simpa using hr
      rw [if_pos rfl, getD_concat_length _ _ hv.len_delivered.symm,
        hv.fresh_key _ hnone]
    · rw [if_neg hkx] at hk
      have hlt : i < s.pending_items.length :=
        hv.idx_lt (k, i) (lookupIdx_mem hk)
      have hltd : i < s.delivered.length := hv.len_delivered ▸ hlt
      rw [List.getElem?_append_left hlt] at hr
      rw [if_neg (fun hfk => hkx hfk.symm), List.append_nil,
        getD_append_left _ hltd]
      exact hv.partition k i hk r hr
  · intro k hk
    rw [lookupIdx] at hk
    by_cases hkx : k = f x
    · rw [if_pos hkx] at hk
      exact Option.noConfusion hk
    · rw [if_neg hkx] at hk
      rw [List.filter_append]
      simp only [List.filter_cons, List.filter_nil, decide_eq_true_eq]
      rw [if_neg (fun hfk => hkx hfk.symm), List.append_nil]
      exact hv.fresh_key k hk
  · intro i hi
    obtain ⟨q, hq⟩ := hv.owned_live i hi
    exact ⟨q, by rw [List.getElem?_append_left (lt_of_getElem?_some hq)]; exact hq⟩
  · intro i hi
    obtain ⟨q, hq⟩ := hv.pending_live i hi
    exact ⟨q, by rw [List.getElem?_append_left (lt_of_getElem?_some hq)]; exact hq⟩
  · intro hmem
    obtain ⟨i, hi⟩ := hv.ann_keys (f x) hmem
    rw [hnone] at hi
    exact Option.noConfusion hi
  · intro hmem
    rcases List.mem_append.1 hmem with hmem2 | hmem2
    · obtain ⟨q, hq⟩ := hv.owned_live _ hmem2
      exact Nat.lt_irrefl _ (lt_of_getElem?_some hq)
    · obtain ⟨q, hq⟩ := hv.pending_live _ hmem2
      exact Nat.lt_irrefl _ (lt_of_getElem?_some hq)
  · intro k hk
    obtain ⟨i, hi⟩ := hv.ann_keys k hk
    have hne : k ≠ f x := by
      rintro rfl
      rw [hnone] at hi
      exact Option.noConfusion hi
    exact ⟨i, by rw [lookupIdx_cons_ne _ hne]; exact hi⟩

/-- Allocating a slot for a fresh key while a `Group` drives the source (the
announcement is buffered in `pending_groups`) preserves the invariant. -/
theorem inv_newGroupBuffered {K I E : Type} [DecidableEq K] {f : I → K}
    {s : GroupByState K I E} {x : I}
    (hv : GroupInv f s) (hnone : lookupIdx (f x) s.group_indices = none) :
    GroupInv f { s with
      consumed := s.consumed ++ [x],
      pending_items := s.pending_items ++ [some [x]],
      group_indices := (f x, s.pending_items.length) :: s.group_indices,
      pending_groups := s.pending_groups ++ [.ok (f x, s.pending_items.length)],
      delivered := s.delivered ++ [[]] } := by
  obtain ⟨c1, c2, c3, c4, c5, c6, c7, c8, c9, c10, c11⟩ := newSlot_core hv hnone
  refine ⟨c1, c2, c3, c4, c5, c6, c7, ?_, ?_, ?_, ?_⟩
  · intro i hi
    simp only [pendingOkIdxs_concat_ok] at hi
    rcases List.mem_append.1 hi with hi2 | hi2
    · exact c8 i hi2
    · obtain rfl : i = s.pending_items.length := by simpa using hi2
      exact ⟨[x], List.getElem?_concat_length _ _⟩
  · simp only [pendingOkKeys_concat_ok]
    have h := nodup_concat_of hv.ann_nodup c9
    rwa [List.append_assoc] at h
  · intro k hk
    simp only [pendingOkKeys_concat_ok] at hk
    rw [← List.append_assoc] at hk
    rcases List.mem_append.1 hk with hk2 | hk2
    · exact c11 k hk2
    · obtain rfl : k = f x := by simpa using hk2
      exact ⟨s.pending_items.length, by rw [lookupIdx, if_pos rfl]⟩
  · simp only [pendingOkIdxs_concat_ok]
    have h := nodup_concat_of hv.own_nodup c10
    rwa [List.append_assoc] at h

/-- Allocating a slot for a fresh key during `poll_next_group` (the
`(Key, Group)` pair is returned to the caller at once) preserves the
invariant. -/
theorem inv_newGroupDirect {K I E : Type} [DecidableEq K] {f : I → K}
    {s : GroupByState K I E} {x : I}
    (hv : GroupInv f s) (hnone : lookupIdx (f x) s.group_indices = none) :
    GroupInv f { s with
      consumed := s.consumed ++ [x],
      pending_items := s.pending_items ++ [some [x]],
      group_indices := (f x, s.pending_items.length) :: s.group_indices,
      delivered := s.delivered ++ [[]],
      announced := s.announced ++ [f x],
      owned := s.owned ++ [s.pending_items.length] } := by
  obtain ⟨c1, c2, c3, c4, c5, c6, c7, c8, c9, c10, c11⟩ := newSlot_core hv hnone
  refine ⟨c1, c2, c3, c4, c5, c6, ?_, c8, ?_, ?_, ?_⟩
  · intro i hi
    rcases List.mem_append.1 hi with hi2 | hi2
    · exact c7 i hi2
    · obtain rfl : i = s.pending_items.length := by simpa using hi2
      exact ⟨[x], List.getElem?_concat_length _ _⟩
  · rw [(perm_append_concat s.announced (pendingOkKeys s.pending_groups) (f x)).nodup_iff,
      ← List.append_assoc]
    exact nodup_concat_of hv.ann_nodup c9
  · intro k hk
    rw [(perm_append_concat s.announced (pendingOkKeys s.pending_groups) (f x)).mem_iff,
      ← List.append_assoc] at hk
    rcases List.mem_append.1 hk with hk2 | hk2
    · exact c11 k hk2
    · obtain rfl : k = f x := by simpa using hk2
      exact ⟨s.pending_items.length, by rw [lookupIdx, if_pos rfl]⟩
  · rw [(perm_append_concat s.owned (pendingOkIdxs s.pending_groups)
      s.pending_items.length).nodup_iff, ← List.append_assoc]
    exact nodup_concat_of hv.own_nodup c10

/-- `Vec::pop` delivering the last buffered `(Key, Group)` announcement to
the caller preserves the invariant. -/
theorem inv_popOk {K I E : Type} [DecidableEq K] {f : I → K}
    {s : GroupByState K I E} {k : K} {i : Nat}
    (hv : GroupInv f s) (hlast : s.pending_groups.getLast? = some (.ok (k, i))) :
    GroupInv f { s with
      pending_groups := s.pending_groups.dropLast,
      announced := s.announced ++ [k],
      owned := s.owned ++ [i] } := by
  have hdec : s.pending_groups.dropLast ++ [.ok (k, i)] = s.pending_groups :=
    List.dropLast_append_getLast? _ hlast
  have hpk : pendingOkKeys s.pending_groups =
      pendingOkKeys s.pending_groups.dropLast ++ [k] := by
    rw [← hdec, pendingOkKeys_concat_ok, hdec]
  have hpi : pendingOkIdxs s.pending_groups =
      pendingOkIdxs s.pending_groups.dropLast ++ [i] := by
    rw [← hdec, pendingOkIdxs_concat_ok, hdec]
  refine ⟨hv.len_delivered, hv.idx_lt, hv.keys_nodup, hv.idxs_nodup,
    hv.partition, hv.fresh_key, ?_, ?_, ?_, ?_, ?_⟩
  · intro j hj
    rcases List.mem_append.1 hj with hj2 | hj2
    · exact hv.owned_live j hj2
    · obtain rfl : j = i := by simpa using hj2
      exact hv.pending_live j (by rw [hpi]; exact List.mem_append.2 (Or.inr (by simp)))
  · intro j hj
    exact hv.pending_live j (by rw [hpi]; exact List.mem_append.2 (Or.inl hj))
  · rw [(perm_append_concat s.announced
      (pendingOkKeys s.pending_groups.dropLast) k).nodup_iff, ← hpk]
    exact hv.ann_nodup
  · intro k2 hk2
    refine hv.ann_keys k2 ?_
    rw [(perm_append_concat s.announced
      (pendingOkKeys s.pending_groups.dropLast) k).mem_iff, ← hpk] at hk2
    exact hk2
  · rw [(perm_append_concat s.owned
      (pendingOkIdxs s.pending_groups.dropLast) i).nodup_iff, ← hpi]
    exact hv.own_nodup

/-- `Vec::pop` delivering the last buffered announcement when it is a
captured source error preserves the invariant. -/
theorem inv_popErr {K I E : Type} [DecidableEq K] {f : I → K}
    {s : GroupByState K I E} {e : E}
    (hv : GroupInv f s) (hlast : s.pending_groups.getLast? = some (.error e)) :
    GroupInv f { s with pending_groups := s.pending_groups.dropLast } := by
  have hdec : s.pending_groups.dropLast ++ [.error e] = s.pending_groups :=
    List.dropLast_append_getLast? _ hlast
  have hpk : pendingOkKeys s.pending_groups =
      pendingOkKeys s.pending_groups.dropLast := by
    conv_lhs => rw [← hdec]
    rw [pendingOkKeys_concat_err]
  have hpi : pendingOkIdxs s.pending_groups =
      pendingOkIdxs s.pending_groups.dropLast := by
    conv_lhs => rw [← hdec]
    rw [pendingOkIdxs_concat_err]
  exact ⟨hv.len_delivered, hv.idx_lt, hv.keys_nodup, hv.idxs_nodup,
    hv.partition, hv.fresh_key, hv.owned_live,
    fun j hj => hv.pending_live j (hpi ▸ hj),
    hpk ▸ hv.ann_nodup, fun k2 hk2 => hv.ann_keys k2 (hpk ▸ hk2),
    hpi ▸ hv.own_nodup⟩

/-- Dropping an owned `Group` handle (tombstoning its slot) preserves the
invariant. -/
theorem inv_drop {K I E : Type} [DecidableEq K] {f : I → K}
    {s : GroupByState K I E} {i : Nat}
    (hv : GroupInv f s) (hi : i ∈ s.owned) :
    GroupInv f (dropGroup i s) := by
  have howned : s.owned.Nodup := (List.nodup_append.1 hv.own_nodup).1
  have hdisj : s.owned.Disjoint (pendingOkIdxs s.pending_groups) :=
    (List.nodup_append.1 hv.own_nodup).2.2
  refine ⟨?_, ?_, hv.keys_nodup, hv.idxs_nodup, ?_, hv.fresh_key, ?_, ?_,
    hv.ann_nodup, hv.ann_keys, ?_⟩
  · simp [dropGroup, hv.len_delivered]
  · simpa [dropGroup] using hv.idx_lt
  · intro k i2 hk r hr
    simp only [dropGroup] at hr ⊢
    by_cases hij : i = i2
    · subst hij
      obtain ⟨q, hq⟩ := hv.owned_live i hi
      rw [List.getElem?_set_eq_of_lt _ (lt_of_getElem?_some hq)] at hr
      exact absurd (Option.some.inj hr) (by simp)
    · rw [List.getElem?_set_ne hij] at hr
      exact hv.partition k i2 hk r hr
  · intro j hj
    simp only [dropGroup] at hj ⊢
    rw [howned.mem_erase_iff] at hj
    rw [List.getElem?_set_ne (fun hc => hj.1 hc.symm)]
    exact hv.owned_live j hj.2
  · intro j hj
    simp only [dropGroup] at hj ⊢
    have hij : i ≠ j := fun hc => hdisj hi (hc ▸ hj)
    rw [List.getElem?_set_ne hij]
    exact hv.pending_live j hj
  · simp only [dropGroup]
    exact hv.own_nodup.sublist
      (List.Sublist.append (List.erase_sublist i s.owned) (List.Sublist.refl _))

/-- The items a successful `driveItem` appends to the polled slot's
`delivered` ghost: exactly the returned item, if any. -/
def returnedItems {I : Type} : Except Unit (Async (Option I)) → List I
  | .ok (.ready (some x)) => [x]
  | _ => []

/-- Driving the source on behalf of slot `index` (whose queue is empty)
preserves the invariant, keeps that queue empty, and grows that slot's
`delivered` ghost by exactly the returned item. -/
theorem driveItem_inv {K I E : Type} [DecidableEq K] {f : I → K} {index : Nat} :
    ∀ (evs : List (Ev I E)) {s : GroupByState K I E} {r evs' s'},
      GroupInv f s → s.pending_items[index]? = some (some []) →
      driveItem f index evs s = some (r, evs', s') →
      GroupInv f s' ∧ s'.pending_items[index]? = some (some [])
        ∧ s'.delivered.getD index [] = s.delivered.getD index [] ++ returnedItems r := by
  intro evs
  induction evs with
  | nil =>
    intro s r evs' s' hv hq hstep
    simp only [driveItem, Option.some.injEq, Prod.mk.injEq] at hstep
    obtain ⟨rfl, rfl, rfl⟩ := hstep
    exact ⟨hv, hq, by simp [returnedItems]⟩
  | cons ev rest ih =>
    intro s r evs' s' hv hq hstep
    cases ev with
    | notReady =>
      simp only [driveItem, Option.some.injEq, Prod.mk.injEq] at hstep
      obtain ⟨rfl, rfl, rfl⟩ := hstep
      exact ⟨hv, hq, by simp [returnedItems]⟩
    | eos =>
      simp only [driveItem, Option.some.injEq, Prod.mk.injEq] at hstep
      obtain ⟨rfl, rfl, rfl⟩ := hstep
      exact ⟨hv, hq, by simp [returnedItems]⟩
    | err e =>
      simp only [driveItem, Option.some.injEq, Prod.mk.injEq] at hstep
      obtain ⟨rfl, rfl, rfl⟩ := hstep
      exact ⟨inv_pushErr hv e, hq, by simp [returnedItems]⟩
    | item x =>
      have hltd : index < s.delivered.length :=
        hv.len_delivered ▸ lt_of_getElem?_some hq
      rcases hl : lookupIdx (f x) s.group_indices with _ | j
      · -- new key: allocate a slot, buffer the announcement, keep driving
        rw [driveItem] at hstep
        simp only [hl] at hstep
        have hv2 := inv_newGroupBuffered hv hl
        have hq2 : (s.pending_items ++ [some [x]])[index]? = some (some []) := by
          rw [List.getElem?_append_left (lt_of_getElem?_some hq)]
          exact hq
        obtain ⟨ha, hb, hc⟩ := ih hv2 hq2 hstep
        refine ⟨ha, hb, ?_⟩
        rw [hc]
        simp only
        rw [getD_append_left _ hltd]
      · by_cases hji : j = index
        · -- an item for this very slot: return it
          subst hji
          rw [driveItem] at hstep
          simp only [hl, if_pos rfl, Option.some.injEq, Prod.mk.injEq] at hstep
          obtain ⟨rfl, rfl, rfl⟩ := hstep
          refine ⟨inv_deliverOwn hv hl hq, hq, ?_⟩
          simp only [returnedItems]
          rw [getD_set_self _ _ hltd]
        · -- an item for another slot
          rcases hj2 : s.pending_items[j]? with _ | (_ | q)
          · rw [driveItem] at hstep
            simp only [hl, if_neg hji, hj2] at hstep
            exact Option.noConfusion hstep
          · -- tombstoned slot: discard and keep driving
            rw [driveItem] at hstep
            simp only [hl, if_neg hji, hj2] at hstep
            have hv2 := inv_discard hv hl hj2
            obtain ⟨ha, hb, hc⟩ := ih hv2 hq hstep
            exact ⟨ha, hb, hc⟩
          · -- live slot: enqueue and keep driving
            rw [driveItem] at hstep
            simp only [hl, if_neg hji, hj2] at hstep
            have hv2 := inv_enqueue hv hl hj2
            have hq2 : (s.pending_items.set j (some (q ++ [x])))[index]? =
                some (some []) := by
              rw [List.getElem?_set_ne hji]
              exact hq
            obtain ⟨ha, hb, hc⟩ := ih hv2 hq2 hstep
            exact ⟨ha, hb, hc⟩

/-- Under the invariant, `driveItem` never hits a panic site. -/
theorem driveItem_isSome {K I E : Type} [DecidableEq K] {f : I → K} {index : Nat} :
    ∀ (evs : List (Ev I E)) (s : GroupByState K I E),
      GroupInv f s → driveItem f index evs s ≠ none := by
  intro evs
  induction evs with
  | nil => intro s hv; simp [driveItem]
  | cons ev rest ih =>
    intro s hv
    cases ev with
    | notReady => simp [driveItem]
    | eos => simp [driveItem]
    | err e => simp [driveItem]
    | item x =>
      rcases hl : lookupIdx (f x) s.group_indices with _ | j
      · rw [driveItem]
        simp only [hl]
        exact ih _ (inv_newGroupBuffered hv hl)
      · by_cases hji : j = index
        · subst hji
          rw [driveItem]
          simp [hl]
        · rcases hj2 : s.pending_items[j]? with _ | (_ | q)
          · have hlt : j < s.pending_items.length :=
              hv.idx_lt (f x, j) (lookupIdx_mem hl)
            rw [List.getElem?_eq_getElem hlt] at hj2
            exact Option.noConfusion hj2
          · rw [driveItem]
            simp only [hl, if_neg hji, hj2]
            exact ih _ (inv_discard hv hl hj2)
          · rw [driveItem]
            simp only [hl, if_neg hji, hj2]
            exact ih _ (inv_enqueue hv hl hj2)

/-- Driving the source on behalf of the group-discovery stream preserves the
invariant. -/
theorem driveGroup_inv {K I E : Type} [DecidableEq K] {f : I → K} :
    ∀ (evs : List (Ev I E)) {s : GroupByState K I E} {r evs' s'},
      GroupInv f s → driveGroup f evs s = some (r, evs', s') → GroupInv f s' := by
  intro evs
  induction evs with
  | nil =>
    intro s r evs' s' hv hstep
    simp only [driveGroup, Option.some.injEq, Prod.mk.injEq] at hstep
    obtain ⟨rfl, rfl, rfl⟩ := hstep
    exact hv
  | cons ev rest ih =>
    intro s r evs' s' hv hstep
    cases ev with
    | notReady =>
      simp only [driveGroup, Option.some.injEq, Prod.mk.injEq] at hstep
      obtain ⟨rfl, rfl, rfl⟩ := hstep
      exact hv
    | eos =>
      simp only [driveGroup, Option.some.injEq, Prod.mk.injEq] at hstep
      obtain ⟨rfl, rfl, rfl⟩ := hstep
      exact hv
    | err e =>
      simp only [driveGroup, Option.some.injEq, Prod.mk.injEq] at hstep
      obtain ⟨rfl, rfl, rfl⟩ := hstep
      exact hv
    | item x =>
      rcases hl : lookupIdx (f x) s.group_indices with _ | j
      · rw [driveGroup] at hstep
        simp only [hl, Option.some.injEq, Prod.mk.injEq] at hstep
        obtain ⟨rfl, rfl, rfl⟩ := hstep
        exact inv_newGroupDirect hv hl
      · rcases hj2 : s.pending_items[j]? with _ | (_ | q)
        · rw [driveGroup] at hstep
          simp only [hl, hj2] at hstep
          exact Option.noConfusion hstep
        · rw [driveGroup] at hstep
          simp only [hl, hj2] at hstep
          exact ih (inv_discard hv hl hj2) hstep
        · rw [driveGroup] at hstep
          simp only [hl, hj2] at hstep
          exact ih (inv_enqueue hv hl hj2) hstep

/-- Polling an owned `Group` handle preserves the invariant and grows that
slot's `delivered` ghost by exactly the returned item. -/
theorem pollNextGroupItem_inv {K I E : Type} [DecidableEq K] {f : I → K}
    {i : Nat} {evs : List (Ev I E)} {s : GroupByState K I E} {r evs' s'}
    (hv : GroupInv f s) (hi : i ∈ s.owned)
    (hstep : pollNextGroupItem f i evs s = some (r, evs', s')) :
    GroupInv f s' ∧ s'.delivered.getD i [] = s.delivered.getD i [] ++ returnedItems r := by
  obtain ⟨q, hq⟩ := hv.owned_live i hi
  rw [pollNextGroupItem] at hstep
  cases q with
  | nil =>
    simp only [hq] at hstep
    obtain ⟨ha, _, hc⟩ := driveItem_inv evs hv hq hstep
    exact ⟨ha, hc⟩
  | cons x q2 =>
    simp only [hq, Option.some.injEq, Prod.mk.injEq] at hstep
    obtain ⟨rfl, rfl, rfl⟩ := hstep
    refine ⟨inv_popFront hv hq, ?_⟩
    simp only [returnedItems]
    exact getD_set_self _ _ (hv.len_delivered ▸ lt_of_getElem?_some hq)

/-- Polling an owned `Group` handle never panics: the `unreachable!` branch
for a tombstoned slot is dead while the handle is owned. -/
theorem pollNextGroupItem_isSome {K I E : Type} [DecidableEq K] {f : I → K}
    {i : Nat} {evs : List (Ev I E)} {s : GroupByState K I E}
    (hv : GroupInv f s) (hi : i ∈ s.owned) :
    pollNextGroupItem f i evs s ≠ none := by
  obtain ⟨q, hq⟩ := hv.owned_live i hi
  rw [pollNextGroupItem]
  cases q with
  | nil =>
    simp only [hq]
    exact driveItem_isSome evs s hv
  | cons x q2 => simp [hq]

/-- Polling the `GroupBy` discovery stream preserves the invariant. -/
theorem pollNextGroup_inv {K I E : Type} [DecidableEq K] {f : I → K}
    {evs : List (Ev I E)} {s : GroupByState K I E} {r evs' s'}
    (hv : GroupInv f s) (hstep : pollNextGroup f evs s = some (r, evs', s')) :
    GroupInv f s' := by
  rw [pollNextGroup] at hstep
  rcases hlast : s.pending_groups.getLast? with _ | (e | ⟨k, i⟩)
  · simp only [hlast] at hstep
    exact driveGroup_inv evs hv hstep
  · simp only [hlast, Option.some.injEq, Prod.mk.injEq] at hstep
    obtain ⟨rfl, rfl, rfl⟩ := hstep
    exact inv_popErr hv hlast
  · simp only [hlast, Option.some.injEq, Prod.mk.injEq] at hstep
    obtain ⟨rfl, rfl, rfl⟩ := hstep
    exact inv_popOk hv hlast

/-- The invariant holds in the initial state. -/
theorem inv_init {K I E : Type} [DecidableEq K] (f : I → K) :
    GroupInv f (initGroupBy (K := K) (I := I) (E := E)) := by
  refine ⟨rfl, ?_, ?_, ?_, ?_, ?_, ?_, ?_, ?_, ?_, ?_⟩ <;>
    simp [initGroupBy, pendingOkKeys, pendingOkIdxs, lookupIdx]

/-- Every reachable shared state satisfies the invariant. -/
theorem reach_inv {K I E : Type} [DecidableEq K] {f : I → K}
    {p : List (Ev I E) × GroupByState K I E} (hr : Reach f p) : GroupInv f p.2 := by
  induction hr with
  | init evs => exact inv_init f
  | step hr hs ih =>
    cases hs with
    | pollItem hi hp => exact (pollNextGroupItem_inv ih hi hp).1
    | pollGroup hp => exact pollNextGroup_inv ih hp
    | dropStep hi => exact inv_drop ih hi

/-- C1: in every reachable shared state, for every discovered key `k` with a
live slot `i`, the items already delivered by that group's polls followed by
the items still queued in the slot are exactly the source items consumed so
far whose classifier key equals `k`, in arrival order — so while the handle
is live no item is lost, duplicated or reordered within the group.  Moreover
each successful poll of an owned `Group` handle grows that group's delivered
sequence by exactly the item it returns (`returnedItems` has at most one
element), so at most one item is dequeued per poll and the delivered ghost
faithfully records the group's output stream. -/
theorem groupBy_partition_ordered {K I E : Type} [DecidableEq K] {f : I → K} :
    (∀ (evs : List (Ev I E)) (s : GroupByState K I E), Reach f (evs, s) →
      ∀ (k : K) (i : Nat), lookupIdx k s.group_indices = some i →
        ∀ q, s.pending_items[i]? = some (some q) →
          s.delivered.getD i [] ++ q = s.consumed.filter fun y => decide (f y = k))
    ∧ (∀ (evs : List (Ev I E)) (s : GroupByState K I E) (i : Nat) r evs' s',
        Reach f (evs, s) → i ∈ s.owned →
        pollNextGroupItem f i evs s = some (r, evs', s') →
        s'.delivered.getD i [] = s.delivered.getD i [] ++ returnedItems r) :=
  ⟨fun _ _ hr => (reach_inv hr).partition,
   fun _ _ _ _ _ _ hr hi hp => (pollNextGroupItem_inv (reach_inv hr) hi hp).2⟩

theorem groupBy_partition_ordered_witness :
    ((⟨[some []], [(5, 0)], [], [5], [[5]], [5], [0]⟩ :
        GroupByState Nat Nat Unit).delivered.getD 0 [] ++ [] =
      List.filter (fun y => decide ((fun n : Nat => n) y = 5)) [5])
    ∧ ((⟨[some []], [(5, 0)], [], [5], [[5]], [5], [0]⟩ :
        GroupByState Nat Nat Unit).delivered.getD 0 [] =
      (⟨[some [5]], [(5, 0)], [], [5], [[]], [5], [0]⟩ :
        GroupByState Nat Nat Unit).delivered.getD 0 [] ++
        returnedItems (.ok (.ready (some 5)))) := by
  have h1 : Reach (fun n : Nat => n)
      ([], (⟨[some [5]], [(5, 0)], [], [5], [[]], [5], [0]⟩ :
        GroupByState Nat Nat Unit)) :=
    Reach.step (Reach.init [Ev.item 5])
      (Step.pollGroup (show pollNextGroup (fun n : Nat => n) [Ev.item 5] initGroupBy =
        some (.ok (.ready (some (5, 0))), [],
          ⟨[some [5]], [(5, 0)], [], [5], [[]], [5], [0]⟩) from rfl))
  have h2 : Reach (fun n : Nat => n)
      ([], (⟨[some []], [(5, 0)], [], [5], [[5]], [5], [0]⟩ :
        GroupByState Nat Nat Unit)) :=
    Reach.step h1
      (Step.pollItem (by decide)
        (show pollNextGroupItem (fun n : Nat => n) 0 []
            (⟨[some [5]], [(5, 0)], [], [5], [[]], [5], [0]⟩ :
              GroupByState Nat Nat Unit) =
          some (.ok (.ready (some 5)), [],
            ⟨[some []], [(5, 0)], [], [5], [[5]], [5], [0]⟩) from rfl))
  exact ⟨groupBy_partition_ordered.1 [] _ h2 5 0 rfl [] rfl,
    groupBy_partition_ordered.2 [] _ 0 (.ok (.ready (some 5))) [] _ h1 (by decide) rfl⟩

/-- C2 counterexample: buffered announcements are *not* delivered in
discovery order.  With classifier `id` and source items `1, 2, 3`, the first
`GroupBy` poll discovers key `1` and hands its group to the caller; polling
that group then drives the whole source, discovering key `2` before key `3`
and buffering their announcements in `pending_groups` in that order.  But
`poll_next_group` pops the `Vec` from the back, so the next two `GroupBy`
polls deliver key `3` first and key `2` second — the reverse of the order in
which those keys first appeared in the source (`announced` ends as
`[1, 3, 2]`). -/
theorem groupBy_lifo_cex :
    (pollNextGroup (fun n : Nat => n) [Ev.item 1, Ev.item 2, Ev.item 3, Ev.eos]
        (initGroupBy (K := Nat) (I := Nat) (E := Unit)) =
      some (.ok (.ready (some (1, 0))), [Ev.item 2, Ev.item 3, Ev.eos],
        ⟨[some [1]], [(1, 0)], [], [1], [[]], [1], [0]⟩))
    ∧ (pollNextGroupItem (fun n : Nat => n) 0 [Ev.item 2, Ev.item 3, Ev.eos]
        (⟨[some [1]], [(1, 0)], [], [1], [[]], [1], [0]⟩ :
          GroupByState Nat Nat Unit) =
      some (.ok (.ready (some 1)), [Ev.item 2, Ev.item 3, Ev.eos],
        ⟨[some []], [(1, 0)], [], [1], [[1]], [1], [0]⟩))
    ∧ (pollNextGroupItem (fun n : Nat => n) 0 [Ev.item 2, Ev.item 3, Ev.eos]
        (⟨[some []], [(1, 0)], [], [1], [[1]], [1], [0]⟩ :
          GroupByState Nat Nat Unit) =
      some (.ok (.ready none), [],
        ⟨[some [], some [2], some [3]], [(3, 2), (2, 1), (1, 0)],
          [.ok (2, 1), .ok (3, 2)], [1, 2, 3], [[1], [], []], [1], [0]⟩))
    ∧ (pollNextGroup (fun n : Nat => n) []
        (⟨[some [], some [2], some [3]], [(3, 2), (2, 1), (1, 0)],
          [.ok (2, 1), .ok (3, 2)], [1, 2, 3], [[1], [], []], [1], [0]⟩ :
          GroupByState Nat Nat Unit) =
      some (.ok (.ready (some (3, 2))), [],
        ⟨[some [], some [2], some [3]], [(3, 2), (2, 1), (1, 0)],
          [.ok (2, 1)], [1, 2, 3], [[1], [], []], [1, 3], [0, 2]⟩))
    ∧ (pollNextGroup (fun n : Nat => n) []
        (⟨[some [], some [2], some [3]], [(3, 2), (2, 1), (1, 0)],
          [.ok (2, 1)], [1, 2, 3], [[1], [], []], [1, 3], [0, 2]⟩ :
          GroupByState Nat Nat Unit) =
      some (.ok (.ready (some (2, 1))), [],
        ⟨[some [], some [2], some [3]], [(3, 2), (2, 1), (1, 0)],
          [], [1, 2, 3], [[1], [], []], [1, 3, 2], [0, 2, 1]⟩)) :=
  ⟨rfl, rfl, rfl, rfl, rfl⟩

/-- C2 (amended): the group-discovery stream yields a `(Key, Group)` pair at
most once per distinct key (in every reachable state the `announced` keys are
without duplicates); pairs discovered while `poll_next_group` itself drives
the source are returned immediately, but announcements that were buffered in
`pending_groups` while a group handle drove the source are delivered
last-in-first-out (`Vec::pop`), i.e. in reverse buffering order, not in
discovery order. -/
theorem groupBy_announce_once_lifo {K I E : Type} [DecidableEq K] {f : I → K} :
    (∀ (evs : List (Ev I E)) (s : GroupByState K I E), Reach f (evs, s) →
      s.announced.Nodup)
    ∧ (∀ (evs : List (Ev I E)) (s : GroupByState K I E)
        (l : List (Except E (K × Nat))) (k : K) (i : Nat),
        s.pending_groups = l ++ [.ok (k, i)] →
        pollNextGroup f evs s =
          some (.ok (.ready (some (k, i))), evs,
            { s with
                pending_groups := l,
                announced := s.announced ++ [k],
                owned := s.owned ++ [i] })) := by
  constructor
  · intro evs s hr
    exact (List.nodup_append.1 (reach_inv hr).ann_nodup).1
  · intro evs s l k i hpg
    rw [pollNextGroup, hpg, List.getLast?_concat]
    simp [List.dropLast_concat, hpg]

theorem groupBy_announce_once_lifo_witness :
    ((⟨[some [], some [2], some [3]], [(3, 2), (2, 1), (1, 0)],
        [], [1, 2, 3], [[1], [], []], [1, 3, 2], [0, 2, 1]⟩ :
        GroupByState Nat Nat Unit).announced.Nodup)
    ∧ (pollNextGroup (fun n : Nat => n) []
        (⟨[some []], [(1, 0)], [.ok (1, 0)], [1], [[]], [], []⟩ :
          GroupByState Nat Nat Unit) =
      some (.ok (.ready (some (1, 0))), [],
        ⟨[some []], [(1, 0)], [], [1], [[]], [1], [0]⟩)) := by
  constructor
  · have h1 : Reach (fun n : Nat => n)
        ([Ev.item 2, Ev.item 3, Ev.eos],
          (⟨[some [1]], [(1, 0)], [], [1], [[]], [1], [0]⟩ :
            GroupByState Nat Nat Unit)) :=
      Reach.step (Reach.init [Ev.item 1, Ev.item 2, Ev.item 3, Ev.eos])
        (Step.pollGroup (show pollNextGroup (fun n : Nat => n)
            [Ev.item 1, Ev.item 2, Ev.item 3, Ev.eos] initGroupBy =
          some (.ok (.ready (some (1, 0))), [Ev.item 2, Ev.item 3, Ev.eos],
            ⟨[some [1]], [(1, 0)], [], [1], [[]], [1], [0]⟩) from rfl))
    have h2 : Reach (fun n : Nat => n)
        ([Ev.item 2, Ev.item 3, Ev.eos],
          (⟨[some []], [(1, 0)], [], [1], [[1]], [1], [0]⟩ :
            GroupByState Nat Nat Unit)) :=
      Reach.step h1
        (Step.pollItem (by decide)
          (show pollNextGroupItem (fun n : Nat => n) 0 [Ev.item 2, Ev.item 3, Ev.eos]
              (⟨[some [1]], [(1, 0)], [], [1], [[]], [1], [0]⟩ :
                GroupByState Nat Nat Unit) =
            some (.ok (.ready (some 1)), [Ev.item 2, Ev.item 3, Ev.eos],
              ⟨[some []], [(1, 0)], [], [1], [[1]], [1], [0]⟩) from rfl))
    have h3 : Reach (fun n : Nat => n)
        ([], (⟨[some [], some [2], some [3]], [(3, 2), (2, 1), (1, 0)],
          [.ok (2, 1), .ok (3, 2)], [1, 2, 3], [[1], [], []], [1], [0]⟩ :
            GroupByState Nat Nat Unit)) :=
      Reach.step h2
        (Step.pollItem (by decide)
          (show pollNextGroupItem (fun n : Nat => n) 0 [Ev.item 2, Ev.item 3, Ev.eos]
              (⟨[some []], [(1, 0)], [], [1], [[1]], [1], [0]⟩ :
                GroupByState Nat Nat Unit) =
            some (.ok (.ready none), [],
              ⟨[some [], some [2], some [3]], [(3, 2), (2, 1), (1, 0)],
                [.ok (2, 1), .ok (3, 2)], [1, 2, 3], [[1], [], []], [1], [0]⟩)
            from rfl))
    have h4 : Reach (fun n : Nat => n)
        ([], (⟨[some [], some [2], some [3]], [(3, 2), (2, 1), (1, 0)],
          [.ok (2, 1)], [1, 2, 3], [[1], [], []], [1, 3], [0, 2]⟩ :
            GroupByState Nat Nat Unit)) :=
      Reach.step h3
        (Step.pollGroup (show pollNextGroup (fun n : Nat => n) []
            (⟨[some [], some [2], some [3]], [(3, 2), (2, 1), (1, 0)],
              [.ok (2, 1), .ok (3, 2)], [1, 2, 3], [[1], [], []], [1], [0]⟩ :
                GroupByState Nat Nat Unit) =
          some (.ok (.ready (some (3, 2))), [],
            ⟨[some [], some [2], some [3]], [(3, 2), (2, 1), (1, 0)],
              [.ok (2, 1)], [1, 2, 3], [[1], [], []], [1, 3], [0, 2]⟩) from rfl))
    have h5 : Reach (fun n : Nat => n)
        ([], (⟨[some [], some [2], some [3]], [(3, 2), (2, 1), (1, 0)],
          [], [1, 2, 3], [[1], [], []], [1, 3, 2], [0, 2, 1]⟩ :
            GroupByState Nat Nat Unit)) :=
      Reach.step h4
        (Step.pollGroup (show pollNextGroup (fun n : Nat => n) []
            (⟨[some [], some [2], some [3]], [(3, 2), (2, 1), (1, 0)],
              [.ok (2, 1)], [1, 2, 3], [[1], [], []], [1, 3], [0, 2]⟩ :
                GroupByState Nat Nat Unit) =
          some (.ok (.ready (some (2, 1))), [],
            ⟨[some [], some [2], some [3]], [(3, 2), (2, 1), (1, 0)],
              [], [1, 2, 3], [[1], [], []], [1, 3, 2], [0, 2, 1]⟩) from rfl))
    exact groupBy_announce_once_lifo.1 [] _ h5
  · exact
      groupBy_announce_once_lifo.2 []
        ⟨[some []], [(1, 0)], [.ok (1, 0)], [1], [[]], [], []⟩ [] 1 0 rfl

/-- A tombstoned slot stays tombstoned across `driveItem`. -/
theorem driveItem_tombstone {K I E : Type} [DecidableEq K] {f : I → K} {index : Nat} :
    ∀ (evs : List (Ev I E)) {s : GroupByState K I E} {r evs' s'} {i : Nat},
      driveItem f index evs s = some (r, evs', s') →
      s.pending_items[i]? = some none → s'.pending_items[i]? = some none := by
  intro evs
  induction evs with
  | nil =>
    intro s r evs' s' i hstep ht
    simp only [driveItem, Option.some.injEq, Prod.mk.injEq] at hstep
    obtain ⟨rfl, rfl, rfl⟩ := hstep
    exact ht
  | cons ev rest ih =>
    intro s r evs' s' i hstep ht
    cases ev with
    | notReady =>
      simp only [driveItem, Option.some.injEq, Prod.mk.injEq] at hstep
      obtain ⟨rfl, rfl, rfl⟩ := hstep
      exact ht
    | eos =>
      simp only [driveItem, Option.some.injEq, Prod.mk.injEq] at hstep
      obtain ⟨rfl, rfl, rfl⟩ := hstep
      exact ht
    | err e =>
      simp only [driveItem, Option.some.injEq, Prod.mk.injEq] at hstep
      obtain ⟨rfl, rfl, rfl⟩ := hstep
      exact ht
    | item x =>
      rcases hl : lookupIdx (f x) s.group_indices with _ | j
      · rw [driveItem] at hstep
        simp only [hl] at hstep
        refine ih hstep ?_
        rw [List.getElem?_append_left (lt_of_getElem?_some ht)]
        exact ht
      · by_cases hji : j = index
        · subst hji
          rw [driveItem] at hstep
          simp only [hl, if_pos rfl, Option.some.injEq, Prod.mk.injEq] at hstep
          obtain ⟨rfl, rfl, rfl⟩ := hstep
          exact ht
        · rcases hj2 : s.pending_items[j]? with _ | (_ | q)
          · rw [driveItem] at hstep
            simp only [hl, if_neg hji, hj2] at hstep
            exact Option.noConfusion hstep
          · rw [driveItem] at hstep
            simp only [hl, if_neg hji, hj2] at hstep
            exact ih hstep ht
          · rw [driveItem] at hstep
            simp only [hl, if_neg hji, hj2] at hstep
            refine ih hstep ?_
            have hij : j ≠ i := by
              rintro rfl
              rw [hj2] at ht
              exact Option.noConfusion (Option.some.inj ht)
            rw [List.getElem?_set_ne hij]
            exact ht

/-- A tombstoned slot stays tombstoned across `driveGroup`. -/
theorem driveGroup_tombstone {K I E : Type} [DecidableEq K] {f : I → K} :
    ∀ (evs : List (Ev I E)) {s : GroupByState K I E} {r evs' s'} {i : Nat},
      driveGroup f evs s = some (r, evs', s') →
      s.pending_items[i]? = some none → s'.pending_items[i]? = some none := by
  intro evs
  induction evs with
  | nil =>
    intro s r evs' s' i hstep ht
    simp only [driveGroup, Option.some.injEq, Prod.mk.injEq] at hstep
    obtain ⟨rfl, rfl, rfl⟩ := hstep
    exact ht
  | cons ev rest ih =>
    intro s r evs' s' i hstep ht
    cases ev with
    | notReady =>
      simp only [driveGroup, Option.some.injEq, Prod.mk.injEq] at hstep
      obtain ⟨rfl, rfl, rfl⟩ := hstep
      exact ht
    | eos =>
      simp only [driveGroup, Option.some.injEq, Prod.mk.injEq] at hstep
      obtain ⟨rfl, rfl, rfl⟩ := hstep
      exact ht
    | err e =>
      simp only [driveGroup, Option.some.injEq, Prod.mk.injEq] at hstep
      obtain ⟨rfl, rfl, rfl⟩ := hstep
      exact ht
    | item x =>
      rcases hl : lookupIdx (f x) s.group_indices with _ | j
      · rw [driveGroup] at hstep
        simp only [hl, Option.some.injEq, Prod.mk.injEq] at hstep
        obtain ⟨rfl, rfl, rfl⟩ := hstep
        simp only
        rw [List.getElem?_append_left (lt_of_getElem?_some ht)]
        exact ht
      · rcases hj2 : s.pending_items[j]? with _ | (_ | q)
        · rw [driveGroup] at hstep
          simp only [hl, hj2] at hstep
          exact Option.noConfusion hstep
        · rw [driveGroup] at hstep
          simp only [hl, hj2] at hstep
          exact ih hstep ht
        · rw [driveGroup] at hstep
          simp only [hl, hj2] at hstep
          refine ih hstep ?_
          have hij : j ≠ i := by
            rintro rfl
            rw [hj2] at ht
            exact Option.noConfusion (Option.some.inj ht)
          rw [List.getElem?_set_ne hij]
          exact ht

/-- C3: dropping a `Group` handle immediately replaces its slot's queue with
a tombstone (first conjunct); the tombstone is permanent — every externally
drivable operation preserves it (second conjunct); and while any consumer
drives the source, an item classified to a tombstoned slot is simply
consumed and discarded, the drive continuing exactly as if the event had not
occurred, with no buffering — both when a group handle drives the source
(third conjunct) and when the discovery stream does (fourth conjunct) — so
the discovery stream and the other live groups' streams progress
unaffected. -/
theorem groupBy_drop_tombstones {K I E : Type} [DecidableEq K] {f : I → K} :
    (∀ (i : Nat) (s : GroupByState K I E), i < s.pending_items.length →
        (dropGroup i s).pending_items[i]? = some none)
    ∧ (∀ (p q : List (Ev I E) × GroupByState K I E) (i : Nat), Step f p q →
        p.2.pending_items[i]? = some none → q.2.pending_items[i]? = some none)
    ∧ (∀ (index j : Nat) (x : I) (rest : List (Ev I E)) (s : GroupByState K I E),
        lookupIdx (f x) s.group_indices = some j →
        s.pending_items[j]? = some none → j ≠ index →
        driveItem f index (Ev.item x :: rest) s =
          driveItem f index rest { s with consumed := s.consumed ++ [x] })
    ∧ (∀ (j : Nat) (x : I) (rest : List (Ev I E)) (s : GroupByState K I E),
        lookupIdx (f x) s.group_indices = some j →
        s.pending_items[j]? = some none →
        driveGroup f (Ev.item x :: rest) s =
          driveGroup f rest { s with consumed := s.consumed ++ [x] }) := by
  refine ⟨?_, ?_, ?_, ?_⟩
  · intro i s hlt
    simp [dropGroup, List.getElem?_set_eq_of_lt _ hlt]
  · intro p q i hs ht
    cases hs with
    | pollItem hi hp =>
      rename_i evs s i0 r evs' s'
      rw [pollNextGroupItem] at hp
      rcases hq : s.pending_items[i0]? with _ | (_ | (_ | ⟨x, qq⟩))
      · rw [hq] at hp
        exact Option.noConfusion hp
      · rw [hq] at hp
        exact Option.noConfusion hp
      · rw [hq] at hp
        exact driveItem_tombstone evs hp ht
      · rw [hq] at hp
        simp only [Option.some.injEq, Prod.mk.injEq] at hp
        obtain ⟨rfl, rfl, rfl⟩ := hp
        simp only
        have hij : i0 ≠ i := by
          rintro rfl
          rw [hq] at ht
          exact Option.noConfusion (Option.some.inj ht)
        rw [List.getElem?_set_ne hij]
        exact ht
    | pollGroup hp =>
      rename_i evs s r evs' s'
      rw [pollNextGroup] at hp
      rcases hlast : s.pending_groups.getLast? with _ | (e | ⟨k, i2⟩)
      · rw [hlast] at hp
        exact driveGroup_tombstone evs hp ht
      · rw [hlast] at hp
        simp only [Option.some.injEq, Prod.mk.injEq] at hp
        obtain ⟨rfl, rfl, rfl⟩ := hp
        exact ht
      · rw [hlast] at hp
        simp only [Option.some.injEq, Prod.mk.injEq] at hp
        obtain ⟨rfl, rfl, rfl⟩ := hp
        exact ht
    | dropStep hi =>
      rename_i evs s j
      simp only [dropGroup]
      by_cases hij : j = i
      · subst hij
        rw [List.getElem?_set_eq_of_lt _ (lt_of_getElem?_some ht)]
      · rw [List.getElem?_set_ne hij]
        exact ht
  · intro index j x rest s hl ht hji
    rw [driveItem]
    simp only [hl, if_neg hji, ht]
  · intro j x rest s hl ht
    rw [driveGroup]
    simp only [hl, ht]

theorem groupBy_drop_tombstones_witness :
    ((dropGroup 0 (⟨[some [7]], [(7, 0)], [], [7], [[]], [7], [0]⟩ :
        GroupByState Nat Nat Unit)).pending_items[0]? = some none)
    ∧ ((dropGroup 1 (⟨[none, some [8]], [(3, 0), (8, 1)], [], [3, 8], [[], []],
        [3, 8], [1]⟩ : GroupByState Nat Nat Unit)).pending_items[0]? = some none)
    ∧ (driveItem (fun n : Nat => n) 1 [Ev.item 3]
        (⟨[none, some []], [(3, 0), (8, 1)], [], [], [[], []], [3, 8], [1]⟩ :
          GroupByState Nat Nat Unit) =
      driveItem (fun n : Nat => n) 1 []
        (⟨[none, some []], [(3, 0), (8, 1)], [], [3], [[], []], [3, 8], [1]⟩ :
          GroupByState Nat Nat Unit))
    ∧ (driveGroup (fun n : Nat => n) [Ev.item 3]
        (⟨[none], [(3, 0)], [], [], [[]], [3], []⟩ : GroupByState Nat Nat Unit) =
      driveGroup (fun n : Nat => n) []
        (⟨[none], [(3, 0)], [], [3], [[]], [3], []⟩ : GroupByState Nat Nat Unit)) :=
  ⟨(groupBy_drop_tombstones (f := fun n : Nat => n) (E := Unit)).1 0 _ (by decide),
   (groupBy_drop_tombstones (f := fun n : Nat => n) (E := Unit)).2.1 ([], _) ([], _) 0
     (Step.dropStep (i := 1) (by decide)) rfl,
   (groupBy_drop_tombstones (f := fun n : Nat => n) (E := Unit)).2.2.1 1 0 3 [] _ rfl rfl
     (by decide),
   (groupBy_drop_tombstones (f := fun n : Nat => n) (E := Unit)).2.2.2 0 3 [] _ rfl rfl⟩

/-- C4: when a `Group`'s poll drives the source (its queue being empty) and
the source reports an error, the error is appended to `pending_groups` as a
pending announcement and the poll returns `Ok(Ready(None))` — its error type
is the degenerate `()`, so the original error cannot be carried (first
conjunct).  The captured error is then surfaced through the group-discovery
stream: `poll_next_group` pops it, returns it as `Err`, and removes it from
`pending_groups`, so it is delivered exactly once (second conjunct). -/
theorem groupBy_error_to_discovery {K I E : Type} [DecidableEq K] {f : I → K} :
    (∀ (index : Nat) (e : E) (rest : List (Ev I E)) (s : GroupByState K I E),
        s.pending_items[index]? = some (some []) →
        pollNextGroupItem f index (Ev.err e :: rest) s =
          some (.ok (.ready none), rest,
            { s with pending_groups := s.pending_groups ++ [.error e] }))
    ∧ (∀ (evs : List (Ev I E)) (s : GroupByState K I E)
        (l : List (Except E (K × Nat))) (e : E),
        s.pending_groups = l ++ [.error e] →
        pollNextGroup f evs s =
          some (.error e, evs, { s with pending_groups := l })) := by
  constructor
  · intro index e rest s hq
    rw [pollNextGroupItem]
    simp only [hq]
    rw [driveItem]
  · intro evs s l e hpg
    rw [pollNextGroup, hpg, List.getLast?_concat]
    simp [List.dropLast_concat, hpg]

theorem groupBy_error_to_discovery_witness :
    (pollNextGroupItem (fun n : Nat => n) 0 [Ev.err ()]
        (⟨[some []], [(4, 0)], [], [4], [[4]], [4], [0]⟩ :
          GroupByState Nat Nat Unit) =
      some (.ok (.ready none), [],
        ⟨[some []], [(4, 0)], [.error ()], [4], [[4]], [4], [0]⟩))
    ∧ (pollNextGroup (fun n : Nat => n) []
        (⟨[some []], [(4, 0)], [.error ()], [4], [[4]], [4], [0]⟩ :
          GroupByState Nat Nat Unit) =
      some (.error (), [],
        ⟨[some []], [(4, 0)], [], [4], [[4]], [4], [0]⟩)) :=
  ⟨groupBy_error_to_discovery.1 0 () [] _ rfl,
   groupBy_error_to_discovery.2 [] _ [] () rfl⟩

/-- C10: in every reachable shared state, a `Group` handle the caller still
owns (created, handed over, not yet dropped) has an active queue in its slot
(`pending_items[i]` is `Some`), because only that handle's own destructor
tombstones slot `i`; consequently polling a live handle never reaches the
`unreachable!` panic branch for a tombstoned slot. -/
theorem groupBy_owned_slot_live {K I E : Type} [DecidableEq K] {f : I → K} :
    ∀ (evs : List (Ev I E)) (s : GroupByState K I E) (i : Nat),
      Reach f (evs, s) → i ∈ s.owned →
      (∃ q, s.pending_items[i]? = some (some q))
        ∧ pollNextGroupItem f i evs s ≠ none :=
  fun _ _ i hr hi =>
    ⟨(reach_inv hr).owned_live i hi, pollNextGroupItem_isSome (reach_inv hr) hi⟩

theorem groupBy_owned_slot_live_witness :
    ((∃ q, (⟨[some [5]], [(5, 0)], [], [5], [[]], [5], [0]⟩ :
        GroupByState Nat Nat Unit).pending_items[0]? = some (some q))
      ∧ pollNextGroupItem (fun n : Nat => n) 0 []
          (⟨[some [5]], [(5, 0)], [], [5], [[]], [5], [0]⟩ :
            GroupByState Nat Nat Unit) ≠ none) := by
  have h1 : Reach (fun n : Nat => n)
      ([], (⟨[some [5]], [(5, 0)], [], [5], [[]], [5], [0]⟩ :
        GroupByState Nat Nat Unit)) :=
    Reach.step (Reach.init [Ev.item 5])
      (Step.pollGroup (show pollNextGroup (fun n : Nat => n) [Ev.item 5] initGroupBy =
        some (.ok (.ready (some (5, 0))), [],
          ⟨[some [5]], [(5, 0)], [], [5], [[]], [5], [0]⟩) from rfl))
  exact groupBy_owned_slot_live [] _ 0 h1 (by decide)

end LzStreamTools
